import Mathlib

/-!
# A verification model of `pydop/fm_diagram.py`

This file gives a shallow embedding, in Lean 4, of the core of the `pydop`
feature-model engine (`src/pydop/fm_diagram.py`), together with theorems about
it.  Python runtime values are modelled by the inductive type `PyVal`
(Booleans, arbitrary-precision integers, floats and strings); Python's
truthiness, `==` and ordering on those values are modelled explicitly
(`truthy`, `pyEq`, `pyLtB`, ...).  Fallible Python code (code that can raise)
is modelled with `Except Unit`.

Naming: each Lean definition's doc comment names the Python function or class
it embeds.
-/

set_option maxHeartbeats 1000000

deriving instance DecidableEq for Except

namespace Pydop

/-- Model of the Python runtime values that flow through the library:
`bool`, `int`, `float` (payload modelled as a rational; the library never
does float arithmetic, it only type-tests and compares them) and `str`. -/
inductive PyVal where
  | bool (b : Bool)
  | int (n : Int)
  | float (q : ℚ)
  | str (s : String)
deriving DecidableEq

/-- Python truthiness (`bool(v)`) for a `PyVal`. -/
def truthy : PyVal → Bool
  | .bool b => b
  | .int n => n ≠ 0
  | .float q => q ≠ 0
  | .str s => s ≠ ""

/-- The numeric value of a `PyVal`, when it is numeric (`bool` is a subclass
of `int` in Python, so `True` counts as `1`). -/
def toNum : PyVal → Option ℚ
  | .bool b => some (if b then 1 else 0)
  | .int n => some (n : ℚ)
  | .float q => some q
  | .str _ => none

/-- Python `==` on `PyVal`s: numeric values compare by value (`True == 1`,
`0.0 == 0`), strings compare as strings, and mixed string/numeric
comparison is `False`.  Never raises. -/
def pyEq (a b : PyVal) : Bool :=
  match toNum a, toNum b with
  | some x, some y => x == y
  | _, _ =>
    match a, b with
    | .str x, .str y => x == y
    | _, _ => false

/-- Python `<` on `PyVal`s: defined on two numeric values or two strings,
raises (`none`) otherwise. -/
def pyLtB (a b : PyVal) : Option Bool :=
  match toNum a, toNum b with
  | some x, some y => some (decide (x < y))
  | _, _ =>
    match a, b with
    | .str x, .str y => some (decide (x < y))
    | _, _ => none

/-- Python `<=` on `PyVal`s (same domain as `pyLtB`). -/
def pyLeB (a b : PyVal) : Option Bool :=
  match toNum a, toNum b with
  | some x, some y => some (decide (x ≤ y))
  | _, _ =>
    match a, b with
    | .str x, .str y => some (decide (x ≤ y))
    | _, _ => none

/-- Python `>=` on `PyVal`s. -/
def pyGeB (a b : PyVal) : Option Bool := pyLeB b a

/-- Python `>` on `PyVal`s. -/
def pyGtB (a b : PyVal) : Option Bool := pyLtB b a

/-- The value slot of a `_eval_result__c`: either an actual Python value or
the `_empty__` sentinel (an `object()` whose default truthiness is `True`). -/
inductive NVal where
  | val (v : PyVal)
  | empty
deriving DecidableEq

/-- Truthiness of a value-or-sentinel.  `_empty__` is a plain object, hence
truthy in Python. -/
def truthyN : NVal → Bool
  | .val v => truthy v
  | .empty => true

instance : Inhabited NVal := ⟨.empty⟩

/-- Python `==` between two value-or-sentinel slots: `_empty__` equals only
itself (identity equality of the sentinel object). -/
def pyEqN : NVal → NVal → Bool
  | .val a, .val b => pyEq a b
  | .empty, .empty => true
  | _, _ => false

/-- Python `<` lifted to value-or-sentinel slots; comparing the sentinel
raises. -/
def pyLtN : NVal → NVal → Option Bool
  | .val a, .val b => pyLtB a b
  | _, _ => none

/-- Python `<=` lifted to value-or-sentinel slots. -/
def pyLeN : NVal → NVal → Option Bool
  | .val a, .val b => pyLeB a b
  | _, _ => none

/-- Python `>=` lifted to value-or-sentinel slots. -/
def pyGeN : NVal → NVal → Option Bool
  | .val a, .val b => pyGeB a b
  | _, _ => none

/-- Python `>` lifted to value-or-sentinel slots. -/
def pyGtN : NVal → NVal → Option Bool
  | .val a, .val b => pyGtB a b
  | _, _ => none

/-- The `expected` arguments of the evaluation functions range over the
Python values `True`, `False` and `None`; we model them as `Option Bool`
(`none` is Python `None`). -/
abbrev OBool := Option Bool

/-- Python `res == expected` where `res` is a `bool` and `expected` is
`True`/`False`/`None`: `b == None` is `False`. -/
def beqBO (res : Bool) (expected : OBool) : Bool :=
  match expected with
  | some b => res == b
  | none => false

/-- Python `x != expected` where `x` is a value-or-sentinel slot and
`expected` is `True`/`False`/`None`.  A genuine value compares with Python
`==` (so `1 != True` is `False`); the sentinel and `None` differ from any
Boolean, and any non-`None` slot differs from `None`. -/
def pyNeNV (x : NVal) (expected : OBool) : Bool :=
  match x, expected with
  | .val v, some b => !(pyEq v (.bool b))
  | .val _, none => true
  | .empty, _ => true

/-! ## Reason trees (`_reason_tree__c` and the local reason classes)

A reason tree holds a list of local reasons and a list of non-empty sub
trees; its `m_count` field always equals the total number of entries, so we
compute it instead of storing it.  The purely diagnostic `m_ref` string
labels (and `update_ref`) are not modelled; a `mismatch` entry records the
`m_val` slot through the value of the stored evaluation result and its
`m_expected` slot. -/

/-- A local reason (`_reason_value_mismatch__c`, `_reason_value_none__c`,
`_reason_dependencies__c`). -/
inductive LReason (K : Type) where
  | mismatch (val : NVal) (expected : OBool)
  | valueNone (ref : K)
  | dependencies (deps : List K)
deriving DecidableEq

/-- `_reason_tree__c`: local reasons plus non-empty sub reason trees. -/
inductive RTree (K : Type) where
  | mk (locals : List (LReason K)) (subs : List (RTree K))

/-- The list of local reasons of a reason tree. -/
def RTree.localsOf {K : Type} : RTree K → List (LReason K)
  | .mk l _ => l

/-- The list of sub reason trees of a reason tree. -/
def RTree.subsOf {K : Type} : RTree K → List (RTree K)
  | .mk _ s => s

/-- `m_count`: every `add_*` method appends one entry and bumps the count,
so the count is the number of local reasons plus attached subs. -/
def RTree.count {K : Type} : RTree K → Nat
  | .mk l s => l.length + s.length

/-- `_reason_tree__c.__bool__`: a reason tree is truthy iff its count is
non-zero. -/
def truthyR {K : Type} (t : RTree K) : Bool := t.count ≠ 0

/-- Truthiness of an optional reason (`None` is falsy). -/
def truthyOR {K : Type} : Option (RTree K) → Bool
  | none => false
  | some t => truthyR t

/-- `_eval_result__c`: the value of an evaluation plus an optional reason. -/
structure ExpRes (K : Type) where
  value : NVal
  reason : Option (RTree K)

/-- `add_reason_sub` applied to a list of evaluation results: keeps exactly
the reasons that are present and truthy. -/
def subsFrom {K : Type} (rs : List (ExpRes K)) : List (RTree K) :=
  rs.filterMap fun r =>
    match r.reason with
    | some t => if truthyR t then some t else none
    | none => none

/-! ## The constraint expression AST (`_expbool__c` and its subclasses) -/

/-- The expression AST.  Children are stored after `_manage_parameter__`
coercion, so every child is itself an expression (`Var`/`Lit` leaves or a
composite); `K` is the type of product keys a `Var` holds. -/
inductive Exp (K : Type) where
  | Var (content : K)
  | Lit (v : PyVal)
  | Lt (l r : Exp K)
  | Leq (l r : Exp K)
  | Eq (l r : Exp K)
  | Geq (l r : Exp K)
  | Gt (l r : Exp K)
  | And (args : List (Exp K))
  | Or (args : List (Exp K))
  | Not (arg : Exp K)
  | Xor (args : List (Exp K))
  | Conflict (args : List (Exp K))
  | Implies (l r : Exp K)
  | Iff (l r : Exp K)

/-- `_get_expected__` of each expression class: the expectation propagated
to every child (none of the classes uses the child or its index). -/
def getExpectedE {K : Type} : Exp K → OBool → OBool
  | .And _, expected => match expected with
    | some true => some true
    | _ => none
  | .Or _, expected => match expected with
    | some false => some false
    | _ => none
  | .Not _, expected => match expected with
    | some true => some false
    | some false => some true
    | none => none
  | _, _ => none

/-- The `Xor._compute__` loop: `res` starts `False`; each truthy element
returns `False` if `res` is already set, else sets it; the loop result is
`res`. -/
def xorAux : List NVal → Bool → Bool
  | [], res => res
  | x :: xs, res =>
    if truthyN x then (if res then false else xorAux xs true) else xorAux xs res

/-- The `Conflict._compute__` loop: same scan as `Xor`, but falls through to
`True` when no second truthy element is found. -/
def conflictAux : List NVal → Bool → Bool
  | [], _ => true
  | x :: xs, res =>
    if truthyN x then (if res then false else conflictAux xs true) else conflictAux xs res

/-- `Implies._compute__`: `(not values[0]) or values[1]`.  Python `or`
returns its second operand when the first is falsy, so the result is the
raw second value, not its Boolean coercion. -/
def computeImplies (a b : NVal) : NVal :=
  if !(truthyN a) then .val (.bool true) else b

/-- Python `res == expected` where `res` is an arbitrary computed value and
`expected` is `True`/`False`/`None`. -/
def beqNVO (res : NVal) (expected : OBool) : Bool :=
  match expected with
  | some b => pyEqN res (.val (.bool b))
  | none => false

/-- The tail of `_expbool__c.__call__`: once the child results and the
computed value are known, either return no reason (computed equals
expected) or build a reason tree with one value-mismatch entry per child
(recording the child result and the child expectation) and every child's
non-empty sub-reason. -/
def finishE {K : Type} (rs : List (ExpRes K)) (childExpected : OBool) (res : NVal)
    (expected : OBool) : ExpRes K :=
  if beqNVO res expected then ⟨res, none⟩
  else ⟨res, some (.mk (rs.map fun r => .mismatch r.value childExpected) (subsFrom rs))⟩

mutual

/-- `__call__` of the expression classes: `Var` looks its key up in the
product (a missing key yields the `_empty__` sentinel and a value-none
reason), `Lit` returns its stored value, and a composite evaluates its
children with the propagated expectation, computes its class's reduction
over the child values, and builds its reason via `finishE`.  A relational
operator applied to incomparable values raises (`Except.error`); a raised
exception in a child propagates. -/
def evalE {K : Type} (p : K → Option PyVal) : Exp K → OBool → Except Unit (ExpRes K)
  | .Var k, _ =>
    match p k with
    | some v => .ok ⟨.val v, none⟩
    | none => .ok ⟨.empty, some (.mk [.valueNone k] [])⟩
  | .Lit v, _ => .ok ⟨.val v, none⟩
  | .Lt l r, expected =>
    match evalE p l (getExpectedE (.Lt l r) expected),
        evalE p r (getExpectedE (.Lt l r) expected) with
    | .ok rl, .ok rr =>
      match pyLtN rl.value rr.value with
      | some res =>
        .ok (finishE [rl, rr] (getExpectedE (.Lt l r) expected) (.val (.bool res)) expected)
      | none => .error ()
    | .error e, _ => .error e
    | _, .error e => .error e
  | .Leq l r, expected =>
    match evalE p l (getExpectedE (.Leq l r) expected),
        evalE p r (getExpectedE (.Leq l r) expected) with
    | .ok rl, .ok rr =>
      match pyLeN rl.value rr.value with
      | some res =>
        .ok (finishE [rl, rr] (getExpectedE (.Leq l r) expected) (.val (.bool res)) expected)
      | none => .error ()
    | .error e, _ => .error e
    | _, .error e => .error e
  | .Eq l r, expected =>
    match evalE p l (getExpectedE (.Eq l r) expected),
        evalE p r (getExpectedE (.Eq l r) expected) with
    | .ok rl, .ok rr =>
      .ok (finishE [rl, rr] (getExpectedE (.Eq l r) expected)
        (.val (.bool (pyEqN rl.value rr.value))) expected)
    | .error e, _ => .error e
    | _, .error e => .error e
  | .Geq l r, expected =>
    match evalE p l (getExpectedE (.Geq l r) expected),
        evalE p r (getExpectedE (.Geq l r) expected) with
    | .ok rl, .ok rr =>
      match pyGeN rl.value rr.value with
      | some res =>
        .ok (finishE [rl, rr] (getExpectedE (.Geq l r) expected) (.val (.bool res)) expected)
      | none => .error ()
    | .error e, _ => .error e
    | _, .error e => .error e
  | .Gt l r, expected =>
    match evalE p l (getExpectedE (.Gt l r) expected),
        evalE p r (getExpectedE (.Gt l r) expected) with
    | .ok rl, .ok rr =>
      match pyGtN rl.value rr.value with
      | some res =>
        .ok (finishE [rl, rr] (getExpectedE (.Gt l r) expected) (.val (.bool res)) expected)
      | none => .error ()
    | .error e, _ => .error e
    | _, .error e => .error e
  | .And args, expected =>
    match evalListE p args (getExpectedE (.And args) expected) with
    | .ok rs =>
      .ok (finishE rs (getExpectedE (.And args) expected)
        (.val (.bool ((rs.map ExpRes.value).all truthyN))) expected)
    | .error e => .error e
  | .Or args, expected =>
    match evalListE p args (getExpectedE (.Or args) expected) with
    | .ok rs =>
      .ok (finishE rs (getExpectedE (.Or args) expected)
        (.val (.bool ((rs.map ExpRes.value).any truthyN))) expected)
    | .error e => .error e
  | .Not a, expected =>
    match evalE p a (getExpectedE (.Not a) expected) with
    | .ok ra =>
      .ok (finishE [ra] (getExpectedE (.Not a) expected)
        (.val (.bool (!(truthyN ra.value)))) expected)
    | .error e => .error e
  | .Xor args, expected =>
    match evalListE p args (getExpectedE (.Xor args) expected) with
    | .ok rs =>
      .ok (finishE rs (getExpectedE (.Xor args) expected)
        (.val (.bool (xorAux (rs.map ExpRes.value) false))) expected)
    | .error e => .error e
  | .Conflict args, expected =>
    match evalListE p args (getExpectedE (.Conflict args) expected) with
    | .ok rs =>
      .ok (finishE rs (getExpectedE (.Conflict args) expected)
        (.val (.bool (conflictAux (rs.map ExpRes.value) false))) expected)
    | .error e => .error e
  | .Implies l r, expected =>
    match evalE p l (getExpectedE (.Implies l r) expected),
        evalE p r (getExpectedE (.Implies l r) expected) with
    | .ok rl, .ok rr =>
      .ok (finishE [rl, rr] (getExpectedE (.Implies l r) expected)
        (computeImplies rl.value rr.value) expected)
    | .error e, _ => .error e
    | _, .error e => .error e
  | .Iff l r, expected =>
    match evalE p l (getExpectedE (.Iff l r) expected),
        evalE p r (getExpectedE (.Iff l r) expected) with
    | .ok rl, .ok rr =>
      .ok (finishE [rl, rr] (getExpectedE (.Iff l r) expected)
        (.val (.bool (pyEqN rl.value rr.value))) expected)
    | .error e, _ => .error e
    | _, .error e => .error e

/-- Evaluation of a tuple of children, in order (exceptions propagate from
the first failing child, as in the Python tuple comprehension). -/
def evalListE {K : Type} (p : K → Option PyVal) : List (Exp K) → OBool →
    Except Unit (List (ExpRes K))
  | [], _ => .ok []
  | e :: es, expected =>
    match evalE p e expected, evalListE p es expected with
    | .ok r, .ok rs => .ok (r :: rs)
    | .error er, _ => .error er
    | _, .error er => .error er

end

/-! ## Claim-side semantics for the expression language

`semValue` is the "standard semantic reduction" in the words of the
specification: truth-table for the logical operators (a child counts as
true when its value is the Boolean `True`), value comparison for the
relational operators.  It is a specification artifact, to be compared with
`evalE`; it is not translated from the source. -/

/-- Claim-side: a child value "is true" when it is the Boolean `True`. -/
def isTrueV (v : PyVal) : Bool := v == .bool true

mutual

/-- The semantic reduction of an expression over a product, following the
specification text: `And` is true iff all children are true, `Or` iff any
child is true, `Not` negates its sole child, `Implies(a,b) = (not a) or b`,
`Iff(a,b) = (a == b)`, `Xor` is true iff exactly one child is true,
`Conflict` iff at most one child is true, and each relational operator
compares its two child values (undefined on incomparable values). -/
def semValue {K : Type} (p : K → Option PyVal) : Exp K → Option PyVal
  | .Var k => p k
  | .Lit v => some v
  | .Lt l r => do
    let a ← semValue p l
    let b ← semValue p r
    (pyLtB a b).map .bool
  | .Leq l r => do
    let a ← semValue p l
    let b ← semValue p r
    (pyLeB a b).map .bool
  | .Eq l r => do
    let a ← semValue p l
    let b ← semValue p r
    some (.bool (pyEq a b))
  | .Geq l r => do
    let a ← semValue p l
    let b ← semValue p r
    (pyGeB a b).map .bool
  | .Gt l r => do
    let a ← semValue p l
    let b ← semValue p r
    (pyGtB a b).map .bool
  | .And args => do
    let vs ← semValueList p args
    some (.bool (vs.all isTrueV))
  | .Or args => do
    let vs ← semValueList p args
    some (.bool (vs.any isTrueV))
  | .Not a => do
    let v ← semValue p a
    some (.bool (!(isTrueV v)))
  | .Xor args => do
    let vs ← semValueList p args
    some (.bool (vs.countP isTrueV == 1))
  | .Conflict args => do
    let vs ← semValueList p args
    some (.bool (decide (vs.countP isTrueV ≤ 1)))
  | .Implies l r => do
    let a ← semValue p l
    let b ← semValue p r
    some (.bool (!(isTrueV a) || isTrueV b))
  | .Iff l r => do
    let a ← semValue p l
    let b ← semValue p r
    some (.bool (pyEq a b))

/-- Semantic values of a list of children. -/
def semValueList {K : Type} (p : K → Option PyVal) : List (Exp K) → Option (List PyVal)
  | [] => some []
  | e :: es => do
    let v ← semValue p e
    let vs ← semValueList p es
    some (v :: vs)

end

/-- Does an optional semantic value exist and is it a Python `bool`? -/
def boolVal : Option PyVal → Bool
  | some (.bool _) => true
  | _ => false

/-- Are the two (optional) values comparable by Python's ordering (both
numeric, or both strings)? -/
def comparableVals : Option PyVal → Option PyVal → Bool
  | some a, some b =>
    ((toNum a).isSome && (toNum b).isSome) ||
      (match a, b with
        | .str _, .str _ => true
        | _, _ => false)
  | _, _ => false

mutual

/-- The typing discipline of the claim: every referenced variable has a
value in the product, logical operators get Boolean child values, and
relational operators get comparable child values (`Eq`/`Iff` merely need
defined values, since Python `==` is total). -/
def wfE {K : Type} (p : K → Option PyVal) : Exp K → Bool
  | .Var k => (p k).isSome
  | .Lit _ => true
  | .Lt l r => wfE p l && wfE p r && comparableVals (semValue p l) (semValue p r)
  | .Leq l r => wfE p l && wfE p r && comparableVals (semValue p l) (semValue p r)
  | .Eq l r => wfE p l && wfE p r && (semValue p l).isSome && (semValue p r).isSome
  | .Geq l r => wfE p l && wfE p r && comparableVals (semValue p l) (semValue p r)
  | .Gt l r => wfE p l && wfE p r && comparableVals (semValue p l) (semValue p r)
  | .And args => wfBoolList p args
  | .Or args => wfBoolList p args
  | .Not a => wfE p a && boolVal (semValue p a)
  | .Xor args => wfBoolList p args
  | .Conflict args => wfBoolList p args
  | .Implies l r => wfE p l && wfE p r && boolVal (semValue p l) && boolVal (semValue p r)
  | .Iff l r => wfE p l && wfE p r && (semValue p l).isSome && (semValue p r).isSome

/-- Every child is well-typed with a Boolean semantic value. -/
def wfBoolList {K : Type} (p : K → Option PyVal) : List (Exp K) → Bool
  | [] => true
  | e :: es => wfE p e && boolVal (semValue p e) && wfBoolList p es

end

/-- The children of a composite expression node (the `m_content` tuple). -/
def childExps {K : Type} : Exp K → List (Exp K)
  | .Var _ => []
  | .Lit _ => []
  | .Lt l r => [l, r]
  | .Leq l r => [l, r]
  | .Eq l r => [l, r]
  | .Geq l r => [l, r]
  | .Gt l r => [l, r]
  | .And args => args
  | .Or args => args
  | .Not a => [a]
  | .Xor args => args
  | .Conflict args => args
  | .Implies l r => [l, r]
  | .Iff l r => [l, r]

/-- Is this expression a composite node (not a `Var`/`Lit` leaf)? -/
def isComposite {K : Type} : Exp K → Bool
  | .Var _ => false
  | .Lit _ => false
  | _ => true

/-- The concrete composite expression of the C6 witness. -/
def c6exp : Exp String := .And [.Lit (.bool true), .Lit (.bool false)]

/-- The child results of the C6 witness evaluation. -/
def c6rs : List (ExpRes String) := [⟨.val (.bool true), none⟩, ⟨.val (.bool false), none⟩]

/-- The evaluation result of the C6 witness. -/
def c6res : ExpRes String :=
  ⟨.val (.bool false),
    some (.mk [.mismatch (.val (.bool true)) (some true),
               .mismatch (.val (.bool false)) (some true)] [])⟩

/-! ## Declaration-error accumulator (`_decl_errors__c`) -/

/-- A canonical path: the list of name (or index) segments from the root. -/
abbrev Path := List String

/-- An error entry: `_unbound__c` (name, optional context path) or
`_ambiguous__c` (name, optional context path, candidate paths). -/
inductive DeclEntry where
  | unbound (name : String) (path : Option Path)
  | ambiguous (name : String) (path : Option Path) (paths : List Path)
deriving DecidableEq

/-- `_decl_errors__c`: two ordered lists of entries. -/
structure DeclErrors where
  m_unbounds : List DeclEntry
  m_ambiguities : List DeclEntry
deriving DecidableEq

/-- `_decl_errors__c.__init__`. -/
def DeclErrors.init : DeclErrors := ⟨[], []⟩

/-- `add_unbound`: appends an unbound entry to `m_unbounds`. -/
def DeclErrors.addUnbound (e : DeclErrors) (name : String) (path : Option Path) :
    DeclErrors :=
  { e with m_unbounds := e.m_unbounds ++ [.unbound name path] }

/-- `add_ambiguous`: the source appends the ambiguous entry to `m_unbounds`
(not to `m_ambiguities`) — this is the faithful translation of line 76 of
`fm_diagram.py`. -/
def DeclErrors.addAmbiguous (e : DeclErrors) (name : String) (path : Option Path)
    (paths : List Path) : DeclErrors :=
  { e with m_unbounds := e.m_unbounds ++ [.ambiguous name path paths] }

/-- `has_unbounds`: truthiness of `m_unbounds`. -/
def DeclErrors.hasUnbounds (e : DeclErrors) : Bool := !e.m_unbounds.isEmpty

/-- `has_ambiguities`: truthiness of `m_ambiguities`. -/
def DeclErrors.hasAmbiguities (e : DeclErrors) : Bool := !e.m_ambiguities.isEmpty

/-- `_decl_errors__c.__bool__`. -/
def DeclErrors.truthyD (e : DeclErrors) : Bool :=
  !e.m_unbounds.isEmpty || !e.m_ambiguities.isEmpty

/-! ## Attribute domains (`_add_domain_spec`, `_check_interval`,
`_check_domain`, class `Int`) -/

/-- A domain-specification argument: a number (int or float, payload its
numeric value), `None`, a 2-tuple of valid bounds (a `none` component is an
unbounded side), or anything else (`malformed`). -/
inductive SpecArg where
  | num (q : ℚ)
  | noneA
  | pair (lo hi : Option ℚ)
  | malformed
deriving DecidableEq

/-- `_is_valid_bound`: int, float or None. -/
def isValidBound : SpecArg → Bool
  | .num _ => true
  | .noneA => true
  | _ => false

/-- The bound value of a valid bound argument (`None` is unbounded). -/
def boundOf : SpecArg → Option ℚ
  | .num q => some q
  | _ => none

/-- The `for arg in spec` loop of `_add_domain_spec`: a bare number `n`
appends the interval `[n, n+1)`; a valid 2-tuple appends itself; anything
else raises `ValueError`. -/
def addDomainSpecLoop : List SpecArg → Except Unit (List (Option ℚ × Option ℚ))
  | [] => .ok []
  | .num q :: rest => (addDomainSpecLoop rest).map (fun l => (some q, some (q + 1)) :: l)
  | .pair lo hi :: rest => (addDomainSpecLoop rest).map (fun l => (lo, hi) :: l)
  | .noneA :: _ => .error ()
  | .malformed :: _ => .error ()

/-- `_add_domain_spec`: when the argument tuple itself is a pair of valid
bounds it is treated as a single interval, otherwise each argument is an
interval spec of its own. -/
def addDomainSpec (args : List SpecArg) : Except Unit (List (Option ℚ × Option ℚ)) :=
  match args with
  | [a, b] =>
    if isValidBound a && isValidBound b then addDomainSpecLoop [.pair (boundOf a) (boundOf b)]
    else addDomainSpecLoop args
  | _ => addDomainSpecLoop args

/-- `_check_interval`: `lo <= v < hi` with `None` meaning unbounded. -/
def checkInterval (lo hi : Option ℚ) (v : ℚ) : Bool :=
  if (match lo with | some l => decide (v < l) | none => false) then false
  else if (match hi with | some h => decide (v ≥ h) | none => false) then false
  else true

/-- `_check_domain`: an empty domain accepts everything; a non-empty domain
accepts a value lying in some interval. -/
def checkDomain (dom : List (Option ℚ × Option ℚ)) (v : ℚ) : Bool :=
  match dom with
  | [] => true
  | _ => dom.any (fun i => checkInterval i.1 i.2 v)

/-- `isinstance(value, int)`: Python `bool` is a subclass of `int`. -/
def isinstInt : PyVal → Bool
  | .int _ => true
  | .bool _ => true
  | _ => false

/-- The class `Int`: its `m_domain` after construction. -/
structure IntSpec where
  m_domain : List (Option ℚ × Option ℚ)
deriving DecidableEq

/-- `Int.__init__` (can raise on a malformed domain spec). -/
def IntSpec.make (args : List SpecArg) : Except Unit IntSpec :=
  (addDomainSpec args).map IntSpec.mk

/-- `Int.__call__`: an `int` instance (including Booleans) that passes the
domain check; anything else is rejected.  On an `int`-typed value `toNum`
is its integer value, so the `getD` default is never used. -/
def IntSpec.call (s : IntSpec) (v : PyVal) : Bool :=
  if isinstInt v then checkDomain s.m_domain ((toNum v).getD 0) else false

/-! ## Paths (`_path_includes__`, `_path_to_str__`, `_path_from_str__`) -/

/-- `_path_includes__(p, p_included)`: linear scan deciding whether
`p_included` occurs as an ordered (not necessarily contiguous) subsequence
of `p`. -/
def pathIncludes : Path → Path → Bool
  | _, [] => true
  | [], _ :: _ => false
  | x :: xs, y :: ys => if x = y then pathIncludes xs ys else pathIncludes xs (y :: ys)

/-- `_path_to_str__` on a non-`None` path. -/
def pathToStr (p : Path) : String := String.intercalate "/" p

/-- Character-level split on `/` (structurally recursive so that concrete
instances compute): accumulator holds the current segment reversed. -/
def splitSlash : List Char → List Char → Path
  | [], acc => [String.mk acc.reverse]
  | c :: cs, acc =>
    if c = '/' then String.mk acc.reverse :: splitSlash cs []
    else splitSlash cs (c :: acc)

/-- `_path_from_str__`: Python `s.split('/')`. -/
def pathFromStr (s : String) : Path := splitSlash s.toList []

/-! ## Entities, constraint keys, lookup tables -/

/-- The identity of a named entity: a feature node (identified by its
canonical path — node objects are in bijection with their tree positions)
or an attribute definition `(name, spec)` pair (identified by its owner's
path and its name). -/
inductive EntityId where
  | node (path : Path)
  | attr (ownerPath : Path) (name : String)
deriving DecidableEq

/-- What a `Var` leaf's `m_content` can be: a string (before resolution),
an entity object (after successful resolution), or a tuple path (left
behind by a failed resolution). -/
inductive CKey where
  | str (s : String)
  | ent (e : EntityId)
  | pathT (p : Path)
deriving DecidableEq

/-- `m_lookup`: a mapping from names to the list of `(entity, path)` pairs
bearing that name, in insertion order (modelled as an association list in
key-insertion order). -/
abbrev Lookup := List (String × List (EntityId × Path))

/-- Python `mapping.get(name)`. -/
def lookupGet (l : Lookup) (name : String) : Option (List (EntityId × Path)) :=
  (l.find? (fun kv => kv.1 == name)).map (·.2)

/-- `tmp.append(entry)` on the list stored under `name` (the name is
present). -/
def lookupAppend (l : Lookup) (name : String) (entry : EntityId × Path) : Lookup :=
  l.map (fun kv => if kv.1 == name then (kv.1, kv.2 ++ [entry]) else kv)

/-- `_fd__c._check_duplicate__`: look the name up; if present, collect the
prior paths that the new path includes (as ordered subsequences), record an
ambiguity when there are any, and append the new entry; otherwise create
the name's entry. -/
def checkDuplicate (el : EntityId) (name : String) (path : Path) (res : Lookup)
    (errors : DeclErrors) : Lookup × DeclErrors :=
  match lookupGet res name with
  | some tmp =>
    let others := (tmp.filter (fun op => pathIncludes path op.2)).map (·.2)
    let errors := if others.isEmpty then errors
      else errors.addAmbiguous name (some path) others
    (lookupAppend res name (el, path), errors)
  | none => (res ++ [(name, [(el, path)])], errors)

/-- `_path_check_exists__`: resolve a textual reference against the lookup.
The source calls `path_s.split('/')`; on a non-string (an already-resolved
entity or a tuple path) this raises `AttributeError`, modelled by
`Except.error`. -/
def pathCheckExists (pathS : CKey) (mapping : Lookup) (errors : DeclErrors)
    (additionalPath : Path) : Except Unit (CKey × DeclErrors) :=
  match pathS with
  | .str s =>
    let segs := pathFromStr s
    let nameSeg := segs.getLastD ""
    let path := additionalPath ++ segs.dropLast
    match lookupGet mapping nameSeg with
    | none => .ok (.pathT path, errors.addUnbound nameSeg none)
    | some decls =>
      let refs := decls.filter (fun el => pathIncludes el.2 path)
      match refs with
      | [] => .ok (.pathT path, errors.addUnbound s (some additionalPath))
      | [r] => .ok (.ent r.1, errors)
      | _ => .ok (.pathT path, errors.addAmbiguous s none (refs.map (·.2)))
  | _ => .error ()

mutual

/-- `_expbool__c._check_declarations__` (and the `Var`/`Lit` overrides):
rewrite every `Var` leaf through `pathCheckExists`, accumulating errors;
composites rebuild their child tuple in order. -/
def checkDecls (path : Path) (mapping : Lookup) :
    Exp CKey → DeclErrors → Except Unit (Exp CKey × DeclErrors)
  | .Var c, errors =>
    (pathCheckExists c mapping errors path).map (fun ce => (.Var ce.1, ce.2))
  | .Lit v, errors => .ok (.Lit v, errors)
  | .Lt l r, errors =>
    match checkDecls path mapping l errors with
    | .ok (l, errors) =>
      match checkDecls path mapping r errors with
      | .ok (r, errors) => .ok (.Lt l r, errors)
      | .error e => .error e
    | .error e => .error e
  | .Leq l r, errors =>
    match checkDecls path mapping l errors with
    | .ok (l, errors) =>
      match checkDecls path mapping r errors with
      | .ok (r, errors) => .ok (.Leq l r, errors)
      | .error e => .error e
    | .error e => .error e
  | .Eq l r, errors =>
    match checkDecls path mapping l errors with
    | .ok (l, errors) =>
      match checkDecls path mapping r errors with
      | .ok (r, errors) => .ok (.Eq l r, errors)
      | .error e => .error e
    | .error e => .error e
  | .Geq l r, errors =>
    match checkDecls path mapping l errors with
    | .ok (l, errors) =>
      match checkDecls path mapping r errors with
      | .ok (r, errors) => .ok (.Geq l r, errors)
      | .error e => .error e
    | .error e => .error e
  | .Gt l r, errors =>
    match checkDecls path mapping l errors with
    | .ok (l, errors) =>
      match checkDecls path mapping r errors with
      | .ok (r, errors) => .ok (.Gt l r, errors)
      | .error e => .error e
    | .error e => .error e
  | .And args, errors =>
    match checkDeclsList path mapping args errors with
    | .ok (ls, errors) => .ok (.And ls, errors)
    | .error e => .error e
  | .Or args, errors =>
    match checkDeclsList path mapping args errors with
    | .ok (ls, errors) => .ok (.Or ls, errors)
    | .error e => .error e
  | .Not a, errors =>
    match checkDecls path mapping a errors with
    | .ok (a, errors) => .ok (.Not a, errors)
    | .error e => .error e
  | .Xor args, errors =>
    match checkDeclsList path mapping args errors with
    | .ok (ls, errors) => .ok (.Xor ls, errors)
    | .error e => .error e
  | .Conflict args, errors =>
    match checkDeclsList path mapping args errors with
    | .ok (ls, errors) => .ok (.Conflict ls, errors)
    | .error e => .error e
  | .Implies l r, errors =>
    match checkDecls path mapping l errors with
    | .ok (l, errors) =>
      match checkDecls path mapping r errors with
      | .ok (r, errors) => .ok (.Implies l r, errors)
      | .error e => .error e
    | .error e => .error e
  | .Iff l r, errors =>
    match checkDecls path mapping l errors with
    | .ok (l, errors) =>
      match checkDecls path mapping r errors with
      | .ok (r, errors) => .ok (.Iff l r, errors)
      | .error e => .error e
    | .error e => .error e

/-- Child tuple of `_check_declarations__`, in order. -/
def checkDeclsList (path : Path) (mapping : Lookup) :
    List (Exp CKey) → DeclErrors → Except Unit (List (Exp CKey) × DeclErrors)
  | [], errors => .ok ([], errors)
  | e :: es, errors =>
    match checkDecls path mapping e errors with
    | .ok (e, errors) =>
      match checkDeclsList path mapping es errors with
      | .ok (es, errors) => .ok (e :: es, errors)
      | .error er => .error er
    | .error er => .error er

end

/-! ## The feature-diagram tree (`_fd__c` and its subclasses) -/

/-- The group kind of a feature node (`FDAnd`, `FDAny`, `FDOr`, `FDXor`;
`FD` is an alias of `FDAnd`). -/
inductive FDKind where
  | fdAnd
  | fdAny
  | fdOr
  | fdXor
deriving DecidableEq

/-- An attribute definition `(name, spec)` attached to a feature: its name,
its domain specification (`spec(value)`, a Boolean predicate on values) and
its product key (Python keys products by the `(name, spec)` pair object;
the embedding makes the key explicit). -/
structure AttrDef (K : Type) where
  name : String
  spec : PyVal → Bool
  key : K

/-- A feature-diagram node: optional name, group kind, product key (Python
keys products by the node object itself), children, attached cross-tree
constraints, and attributes.  The normalization hook `m_norm` is `None`
throughout (no claim exercises it). -/
inductive FDT (K : Type) where
  | mk (name : Option String) (kind : FDKind) (key : K) (children : List (FDT K))
       (ctcs : List (Exp K)) (attrs : List (AttrDef K))

/-- The node's optional name. -/
def FDT.nameOf {K : Type} : FDT K → Option String
  | .mk n _ _ _ _ _ => n

/-- The node's group kind. -/
def FDT.kindOf {K : Type} : FDT K → FDKind
  | .mk _ k _ _ _ _ => k

/-- The node's product key. -/
def FDT.keyOf {K : Type} : FDT K → K
  | .mk _ _ k _ _ _ => k

/-- The node's children. -/
def FDT.childrenOf {K : Type} : FDT K → List (FDT K)
  | .mk _ _ _ c _ _ => c

/-- The node's cross-tree constraints. -/
def FDT.ctcsOf {K : Type} : FDT K → List (Exp K)
  | .mk _ _ _ _ c _ => c

/-- The node's attributes. -/
def FDT.attrsOf {K : Type} : FDT K → List (AttrDef K)
  | .mk _ _ _ _ _ a => a

/-- The path segment a node contributes: its name, or its positional index
rendered as a decimal string when anonymous. -/
def segOf (name : Option String) (idx : Nat) : String :=
  match name with
  | some n => n
  | none => toString idx

/-- The state built by `generate_lookup`: `m_lookup`, `m_dom` (entity to
canonical path string) and the declaration errors. -/
structure LookupState where
  lookup : Lookup
  dom : List (EntityId × String)
  errors : DeclErrors

/-- Step 1/3 of `_generate_lookup_rec__` for one named entity: duplicate
check plus `dom` update. -/
def lookupInsertEntity (el : EntityId) (name : String) (path : Path) (domStr : String)
    (st : LookupState) : LookupState :=
  let lk := checkDuplicate el name path st.lookup st.errors
  ⟨lk.1, st.dom ++ [(el, domStr)], lk.2⟩

/-- Step 1 of `_generate_lookup_rec__`: insert the node itself when it is
named. -/
def glStage1 (name : Option String) (localPath : Path) (st : LookupState) : LookupState :=
  match name with
  | some n => lookupInsertEntity (.node localPath) n localPath (pathToStr localPath) st
  | none => st

/-- Step 3 of `_generate_lookup_rec__`: insert the node's attributes. -/
def glStage3 {K : Type} (attrs : List (AttrDef K)) (localPath : Path) (st : LookupState) :
    LookupState :=
  attrs.foldl (fun st a => lookupInsertEntity (.attr localPath a.name) a.name localPath
    (pathToStr (localPath ++ [a.name])) st) st

mutual

/-- `_fd__c._generate_lookup_rec__`: push the node's segment; if named,
duplicate-check the node and record it in `dom`; recurse into the children
with their positional indices; duplicate-check each attribute (against the
node's own path) and record it in `dom`; resolve the node's cross-tree
constraints against the (partially built) lookup.  Returns the rewritten
node (its ctcs may have been resolved) and the new state; raises if a ctc
`Var` holds a non-string. -/
def generateLookupRec : FDT CKey → Path → Nat → LookupState →
    Except Unit (FDT CKey × LookupState)
  | .mk name kind key children ctcs attrs, pathToSelf, idx, st =>
    let localPath := pathToSelf ++ [segOf name idx]
    match generateLookupRecList children localPath 0 (glStage1 name localPath st) with
    | .ok (children2, st) =>
      let st := glStage3 attrs localPath st
      match checkDeclsList localPath st.lookup ctcs st.errors with
      | .ok (ctcs2, errors2) =>
        .ok (.mk name kind key children2 ctcs2 attrs, ⟨st.lookup, st.dom, errors2⟩)
      | .error e => .error e
    | .error e => .error e

/-- The `for i, sub in enumerate(self.m_content)` loop of
`_generate_lookup_rec__`. -/
def generateLookupRecList : List (FDT CKey) → Path → Nat → LookupState →
    Except Unit (List (FDT CKey) × LookupState)
  | [], _, _, st => .ok ([], st)
  | c :: cs, path, i, st =>
    match generateLookupRec c path i st with
    | .ok (c2, st) =>
      match generateLookupRecList cs path (i + 1) st with
      | .ok (cs2, st) => .ok (c2 :: cs2, st)
      | .error e => .error e
    | .error e => .error e

end

/-- The root object: the tree plus the root-only derived state (`None`
after `clean`, present after `check`). -/
structure FM where
  tree : FDT CKey
  derived : Option LookupState

/-- `_fd__c.clean`: drop `m_lookup`/`m_dom`/`m_errors`.  The constraint
rewriting performed by a previous `check` is NOT undone. -/
def FM.clean (fm : FM) : FM := { fm with derived := none }

/-- `_fd__c.check` / `generate_lookup`: cached when the lookup exists,
otherwise run the recursive pass from the root with an empty path and index
0; returns the accumulated declaration errors. -/
def FM.check (fm : FM) : Except Unit (FM × DeclErrors) :=
  match fm.derived with
  | some st => .ok (fm, st.errors)
  | none =>
    match generateLookupRec fm.tree [] 0 ⟨[], [], DeclErrors.init⟩ with
    | .ok (t2, st) => .ok ({ tree := t2, derived := some st }, st.errors)
    | .error e => .error e

/-- `check(); clean(); check()` on an FM. -/
def checkCleanCheck (fm : FM) : Except Unit (FM × DeclErrors) :=
  match fm.check with
  | .ok (fm1, _) => (fm1.clean).check
  | .error e => .error e

mutual

/-- Does the expression contain no `Var` leaf? -/
def expNoVar {K : Type} : Exp K → Bool
  | .Var _ => false
  | .Lit _ => true
  | .Lt l r => expNoVar l && expNoVar r
  | .Leq l r => expNoVar l && expNoVar r
  | .Eq l r => expNoVar l && expNoVar r
  | .Geq l r => expNoVar l && expNoVar r
  | .Gt l r => expNoVar l && expNoVar r
  | .And args => expNoVarList args
  | .Or args => expNoVarList args
  | .Not a => expNoVar a
  | .Xor args => expNoVarList args
  | .Conflict args => expNoVarList args
  | .Implies l r => expNoVar l && expNoVar r
  | .Iff l r => expNoVar l && expNoVar r

/-- No `Var` leaf in any expression of the list. -/
def expNoVarList {K : Type} : List (Exp K) → Bool
  | [] => true
  | e :: es => expNoVar e && expNoVarList es

end

mutual

/-- Do the cross-tree constraints of this node and of all its descendants
contain no `Var` reference? -/
def fdNoVarCtcs {K : Type} : FDT K → Bool
  | .mk _ _ _ children ctcs _ => expNoVarList ctcs && fdNoVarCtcsList children

/-- List form of `fdNoVarCtcs`. -/
def fdNoVarCtcsList {K : Type} : List (FDT K) → Bool
  | [] => true
  | c :: cs => fdNoVarCtcs c && fdNoVarCtcsList cs

end

/-- Is an `Except` value a success? -/
def isOkE {e a : Type} : Except e a → Bool
  | .ok _ => true
  | .error _ => false

/-- The C8 counterexample FM: root `r` with child `a` and the cross-tree
constraint `Var("a")`. -/
def c8tree : FDT CKey :=
  .mk (some "r") .fdAnd (.ent (.node ["r"]))
    [.mk (some "a") .fdAnd (.ent (.node ["r", "a"])) [] [] []]
    [.Var (.str "a")] []

/-- The C8 counterexample FM object (fresh, not yet checked). -/
def c8fm : FM := ⟨c8tree, none⟩

/-- The C8 witness FM: same shape, no cross-tree constraint. -/
def c8wTree : FDT CKey :=
  .mk (some "r") .fdAnd (.ent (.node ["r"]))
    [.mk (some "a") .fdAnd (.ent (.node ["r", "a"])) [] [] []] [] []

/-- The C8 witness FM object. -/
def c8wFM : FM := ⟨c8wTree, none⟩

/-! ## C5: a linear model of the duplicate check

`visitSeq` lists the named entities of the tree in the order
`_generate_lookup_rec__` inserts them (node, then descendants, then the
node's attributes), with the name and the path each is checked under;
`processSeq` replays the duplicate check linearly.  These are statement
artifacts for claim C5, not translations of further source code. -/

mutual

/-- The named entities of a subtree in insertion order. -/
def visitSeq {K : Type} : FDT K → Path → Nat → List (EntityId × String × Path)
  | .mk name _ _ children _ attrs, path, idx =>
    let localPath := path ++ [segOf name idx]
    (match name with
      | some n => [(.node localPath, n, localPath)]
      | none => []) ++
    (visitSeqList children localPath 0 ++
      attrs.map (fun a => (.attr localPath a.name, a.name, localPath)))

/-- `visitSeq` over a child list with positional indices. -/
def visitSeqList {K : Type} : List (FDT K) → Path → Nat → List (EntityId × String × Path)
  | [], _, _ => []
  | c :: cs, path, i => visitSeq c path i ++ visitSeqList cs path (i + 1)

end

/-- One duplicate-check step on a `(lookup, errors)` pair. -/
def processDup (st : Lookup × DeclErrors) (e : EntityId × String × Path) :
    Lookup × DeclErrors :=
  checkDuplicate e.1 e.2.1 e.2.2 st.1 st.2

/-- Linear replay of the duplicate check over a visit sequence. -/
def processSeq (s : List (EntityId × String × Path)) (st : Lookup × DeclErrors) :
    Lookup × DeclErrors :=
  s.foldl processDup st

mutual

/-- No cross-tree constraint on this node or any descendant. -/
def fdNoCtcs {K : Type} : FDT K → Bool
  | .mk _ _ _ children ctcs _ => ctcs.isEmpty && fdNoCtcsList children

/-- List form of `fdNoCtcs`. -/
def fdNoCtcsList {K : Type} : List (FDT K) → Bool
  | [] => true
  | c :: cs => fdNoCtcs c && fdNoCtcsList cs

end

/-- The names carried by ambiguity entries, wherever the buggy
`add_ambiguous` put them. -/
def ambiguousNamesOf (e : DeclErrors) : List String :=
  (e.m_unbounds ++ e.m_ambiguities).filterMap fun en =>
    match en with
    | .ambiguous n _ _ => some n
    | _ => none

/-- The prior entries bearing a name, in visit order (what the lookup
stores under that name). -/
def entriesFor (seen : List (EntityId × String × Path)) (name : String) :
    List (EntityId × Path) :=
  (seen.filter (fun e => e.2.1 == name)).map (fun e => (e.1, e.2.2))

/-- A lookup table represents a visit prefix when each name maps to exactly
the prior entries bearing it (absent when there are none). -/
def represents (lk : Lookup) (seen : List (EntityId × String × Path)) : Prop :=
  ∀ name, lookupGet lk name
    = match entriesFor seen name with
      | [] => none
      | l => some l

/-- The C5 counterexample tree: two nodes named `a` in parallel branches,
the second nested under a sibling `b`. -/
def c5tree : FDT CKey :=
  .mk (some "r") .fdAnd (.ent (.node ["r"]))
    [.mk (some "a") .fdAnd (.ent (.node ["r", "a"])) [] [] [],
     .mk (some "b") .fdAnd (.ent (.node ["r", "b"]))
       [.mk (some "a") .fdAnd (.ent (.node ["r", "b", "a"])) [] [] []] [] []]
    [] []

/-! ## The feature-model evaluator (`_fd__c._eval_generic__` and friends) -/

/-- `_compute__` of the four group kinds, over the chained child
nvalues/attribute values/ctc values (the `nvalue` second parameter of the
Python method is ignored by all four classes). -/
def computeFD (kind : FDKind) (values : List NVal) : Bool :=
  match kind with
  | .fdAnd => values.all truthyN
  | .fdAny => true
  | .fdOr => values.any truthyN
  | .fdXor => xorAux values false

/-- `_get_expected__` of the four group kinds (note `FDOr` tests `not
expected`, so a `None` parent expectation propagates `False`). -/
def getExpectedFD (kind : FDKind) (expected : OBool) : OBool :=
  match kind with
  | .fdAnd => if expected == some true then some true else none
  | .fdAny => none
  | .fdOr => if expected == some true then none else some false
  | .fdXor => none

/-- Truthiness of the `expected` parameter (`None` and `False` are falsy). -/
def truthyO (e : OBool) : Bool := e == some true

/-- `_fd__c._manage_attribute__`: look the attribute up in the product;
missing with a truthy expectation gives a value-none reason and value
`False`; missing otherwise gives value `False` silently; present gives the
spec's verdict, with a value-mismatch reason when it differs from the
expectation. -/
def manageAttribute {K : Type} (p : K → Option PyVal) (a : AttrDef K) (expected : OBool) :
    ExpRes K :=
  match p a.key with
  | none =>
    if truthyO expected then ⟨.val (.bool false), some (.mk [.valueNone a.key] [])⟩
    else ⟨.val (.bool false), none⟩
  | some v =>
    let res := a.spec v
    if beqBO res expected then ⟨.val (.bool res), none⟩
    else ⟨.val (.bool res), some (.mk [.mismatch (.val (.bool res)) expected] [])⟩

/-- The result of one feature evaluation (`_eval_result_fd__c`). -/
structure FDRes (K : Type) where
  value : Bool
  reason : Option (RTree K)
  nvalue : NVal
  snodes : List K

/-- `add_reason_sub` over feature-diagram child results. -/
def subsFromFD {K : Type} (rs : List (FDRes K)) : List (RTree K) :=
  rs.filterMap fun r =>
    match r.reason with
    | some t => if truthyR t then some t else none
    | none => none

/-- The tail of `_eval_generic__` (lines 781-792): compute the verdict from
the child verdicts and the local named-consistency reason, then, when the
nvalue misses the expectation or the verdict is false, extend the reason
with a value-mismatch for the node and all non-empty sub-reasons. -/
def finishFD {K : Type} (localReason : Option (RTree K)) (valueSubs : Bool)
    (nvalue : NVal) (snodes : List K) (expected : OBool) (subsList : List (RTree K)) :
    FDRes K :=
  let value := valueSubs && localReason.isNone
  if pyNeNV nvalue expected || !value then
    let t0 := localReason.getD ⟨[], []⟩
    let locals1 := if pyNeNV nvalue expected
      then t0.localsOf ++ [.mismatch nvalue expected] else t0.localsOf
    ⟨value, some ⟨locals1, t0.subsOf ++ subsList⟩, nvalue, snodes⟩
  else ⟨value, localReason, nvalue, snodes⟩

/-- The named-consistency check of `_eval_generic__` (lines 759-779): given
the node's name and its product slot (`product.get(self, _empty__)`), the
local reason, the node's nvalue and the possibly-extended snodes list. -/
def namedCheck {K : Type} (name : Option String) (key : K) (pk : Option PyVal)
    (nvalueSub : Bool) (snodes : List K) : Option (RTree K) × NVal × List K :=
  match name, pk with
  | some _, none => (some (.mk [.valueNone key] []), .empty, snodes)
  | some _, some v =>
    if !truthy v && !snodes.isEmpty then
      (some (.mk [.dependencies snodes] []), .val v, snodes)
    else if truthy v && !nvalueSub then
      (some (.mk [.mismatch (.val (.bool true)) (some false)] []), .val v, snodes)
    else if truthy v then (none, .val v, snodes ++ [key])
    else (none, .val v, snodes)
  | none, _ => (none, .val (.bool nvalueSub), snodes)

mutual

/-- `_fd__c._eval_generic__` with deep child lookup (`_f_get_deep__`):
evaluate the children, attributes and cross-tree constraints with the
group's propagated expectation, compute the group value over the chained
nvalues, run the named-consistency check, and assemble the result via
`finishFD`. -/
def evalFD {K : Type} (p : K → Option PyVal) : FDT K → OBool → Except Unit (FDRes K)
  | .mk name kind key children ctcs attrs, expected =>
    match evalFDList p children (getExpectedFD kind expected) with
    | .error e => .error e
    | .ok rcs =>
      let ras := attrs.map (fun a => manageAttribute p a (getExpectedFD kind expected))
      match evalListE p ctcs (getExpectedFD kind expected) with
      | .error e => .error e
      | .ok rcts =>
        let nvalueSubs : List NVal :=
          rcs.map (·.nvalue) ++ (ras.map (·.value) ++ rcts.map (·.value))
        let nvalueSub : Bool := computeFD kind nvalueSubs
        let valueSubs : Bool := rcs.all (·.value)
        let snodes0 : List K := (rcs.map (·.snodes)).flatten
        let nc := namedCheck name key (p key) nvalueSub snodes0
        .ok (finishFD nc.1 valueSubs nc.2.1 nc.2.2 expected
          (subsFromFD rcs ++ (subsFrom ras ++ subsFrom rcts)))

/-- The children tuple of `_eval_generic__`, in order. -/
def evalFDList {K : Type} (p : K → Option PyVal) : List (FDT K) → OBool →
    Except Unit (List (FDRes K))
  | [], _ => .ok []
  | c :: cs, expected =>
    match evalFD p c expected, evalFDList p cs expected with
    | .ok r, .ok rs => .ok (r :: rs)
    | .error er, _ => .error er
    | _, .error er => .error er

end

/-- `_fd__c.__call__`: requires a prior `check()` (modelled by the caller
holding a tree) and evaluates deeply with `expected = True`.  The final
`update_ref` rewriting of reason labels is purely diagnostic and not
modelled (reason shapes and counts are unchanged by it). -/
def fmCall {K : Type} (p : K → Option PyVal) (fd : FDT K) : Except Unit (FDRes K) :=
  evalFD p fd (some true)

/-! ## Product normalization (`nf_product`, fm_diagram.py lines 691-711 and
884-946, with the kind-specific `_infer_sv__` of lines 975-1040)

Products are given with resolved entity keys (the `else` branch of
`_normalize_product__`, line 881: non-string keys pass through unchanged
and record no declaration errors; string keys go through
`_path_check_exists__`, modeled separately by `pathCheckExists`).  A
partial product is the item list of a Python dict: an association list
with pairwise-distinct keys, later writes overriding earlier ones. -/

/-- A (partial) product: the `items()` of a Python dict. -/
abbrev Product (K : Type) := List (K × PyVal)

/-- Dict lookup (keys of a Python dict are unique, so the first match is
the binding). -/
def pget {K : Type} [DecidableEq K] (p : Product K) (k : K) : Option PyVal :=
  (p.find? (fun kv => kv.1 = k)).map (·.2)

/-- The working dictionary `is_true_d`: entity key to (value, provenance
index). -/
abbrev WDict (K : Type) := K → Option (PyVal × Int)

/-- Python `d[k] = v` on the working dictionary. -/
def dset {K : Type} [DecidableEq K] (d : WDict K) (k : K) (v : PyVal × Int) : WDict K :=
  fun x => if x = k then some v else d x

/-- Ingest one partial product at provenance index `i`
(`for k, v in ...items(): is_true_d[k] = (v, i)`, lines 696-698). -/
def ingestP {K : Type} [DecidableEq K] (d : WDict K) (p : Product K) (i : Int) : WDict K :=
  p.foldl (fun d kv => dset d kv.1 (kv.2, i)) d

/-- Ingest the partial products in order, numbering them from `i`
(`for i, p in enumerate(args)`). -/
def ingestFrom {K : Type} [DecidableEq K] (d : WDict K) (i : Int) :
    List (Product K) → WDict K
  | [] => d
  | p :: rest => ingestFrom (ingestP d p i) (i + 1) rest

/-- The `is_true_d` built by `nf_product`'s enumerate loop from an empty
dict. -/
def ingestAll {K : Type} [DecidableEq K] (ps : List (Product K)) : WDict K :=
  ingestFrom (fun _ => none) 0 ps

/-- `_make_product_extract_utils__` with `expected=None` (lines 921-933):
scan the domain left to right, tracking the greatest provenance index seen
and the value first reaching it. -/
def extractNoneGo {K : Type} (d : WDict K) :
    List K → Int → Option PyVal → Int × Option PyVal
  | [], idx, value => (idx, value)
  | sub :: rest, idx, value =>
    match d sub with
    | none => extractNoneGo d rest idx value
    | some (v, i) =>
      if idx < i then extractNoneGo d rest i (some v)
      else extractNoneGo d rest idx value

/-- `_make_product_extract_utils__(is_true_d, domain, expected=None)`. -/
def extractNone {K : Type} (d : WDict K) (dom : List K) : Int × Option PyVal :=
  extractNoneGo d dom (-1) none

/-- `_make_product_extract_utils__` with the default `expected=True`
(lines 934-944): collect each domain entry's value (or `_empty__`),
tracking the greatest provenance index among entries Python-equal to
`True`. -/
def extractTrueGo {K : Type} (d : WDict K) :
    List K → Int → Int × List (Option PyVal)
  | [], idx => (idx, [])
  | sub :: rest, idx =>
    match d sub with
    | none =>
      let r := extractTrueGo d rest idx
      (r.1, none :: r.2)
    | some (v, i) =>
      let idx2 := if pyEq v (.bool true) && decide (idx < i) then i else idx
      let r := extractTrueGo d rest idx2
      (r.1, some v :: r.2)

/-- `_make_product_extract_utils__(is_true_d, domain)` (default expected). -/
def extractTrue {K : Type} (d : WDict K) (dom : List K) : Int × List (Option PyVal) :=
  extractTrueGo d dom (-1)

/-- `_infer_sv__`, dispatched on the node kind (FDAnd lines 975-985;
FDAny/FDOr lines 996-1005/1013-1022; FDXor lines 1029-1040).  Returns
`(idx, v_local, v_subs)`; `_empty__` is `none`. -/
def inferSv {K : Type} [DecidableEq K] (kind : FDKind) (selfKey : K)
    (childKeys : List K) (d : WDict K) : Int × Option PyVal × List (Option PyVal) :=
  match kind with
  | .fdAnd =>
    let p := extractNone d (selfKey :: childKeys)
    let getDefault : K → Option PyVal := fun el =>
      match d el with
      | none => p.2
      | some (v, i) => if i < p.1 then p.2 else some v
    (p.1, getDefault selfKey, childKeys.map getDefault)
  | .fdAny | .fdOr =>
    let q := extractTrue d childKeys
    let vi := (d selfKey).getD (.bool false, -1)
    if vi.2 < q.1 then (q.1, some (.bool true), q.2)
    else (vi.2, some vi.1, q.2)
  | .fdXor =>
    let q := extractTrue d childKeys
    let vi := (d selfKey).getD (.bool false, -1)
    let li : PyVal × Int := if vi.2 < q.1 then (.bool true, q.1) else vi
    let vSubs := if (-1 : Int) < q.1 then
        childKeys.map (fun sub =>
          let w := (d sub).getD (.bool false, -1)
          some (PyVal.bool (pyEq w.1 (.bool true) && w.2 == q.1)))
      else q.2
    (li.2, some li.1, vSubs)

/-- `_make_product_update__` (lines 892-897): write `v_local` at the node
key when not `_empty__`, then zip children with `v_subs` and write the
non-`_empty__` ones, all at provenance `idx`. -/
def mkProductUpdate {K : Type} [DecidableEq K] (selfKey : K) (childKeys : List K)
    (d : WDict K) (idx : Int) (vLocal : Option PyVal) (vSubs : List (Option PyVal)) :
    WDict K :=
  let d1 := match vLocal with
    | none => d
    | some v => dset d selfKey (v, idx)
  (childKeys.zip vSubs).foldl (fun d kv =>
    match kv.2 with
    | none => d
    | some v => dset d kv.1 (v, idx)) d1

mutual

/-- `_make_product_rec_1` (lines 884-890): infer and update, recurse on
the children, infer and update again. -/
def mkProductRec1 {K : Type} [DecidableEq K] : FDT K → WDict K → WDict K
  | .mk _ kind key children _ _, d =>
    let ck := children.map FDT.keyOf
    let s1 := inferSv kind key ck d
    let d1 := mkProductUpdate key ck d s1.1 s1.2.1 s1.2.2
    let d2 := mkProductRec1List children d1
    let s2 := inferSv kind key ck d2
    mkProductUpdate key ck d2 s2.1 s2.2.1 s2.2.2

/-- The `for sub in self.m_content` loop of `_make_product_rec_1`. -/
def mkProductRec1List {K : Type} [DecidableEq K] : List (FDT K) → WDict K → WDict K
  | [], d => d
  | c :: cs, d => mkProductRec1List cs (mkProductRec1 c d)

end

/-- The result product being built by `_make_product_rec_2` (a Python
dict, viewed as the mapping it finally denotes). -/
abbrev RDict (K : Type) := K → Option PyVal

/-- Python `res[k] = v` on the result dict. -/
def rset {K : Type} [DecidableEq K] (res : RDict K) (k : K) (v : PyVal) : RDict K :=
  fun x => if x = k then some v else res x

mutual

/-- `_make_product_rec_2` (lines 899-915): re-infer `v_subs`, record
`v_local` for the node, recurse on the children zipped with `v_subs`
(`_empty__` turning into `False`), and — only when `v_local` is truthy —
record every attribute that has an entry in `is_true_d`. -/
def mkProductRec2 {K : Type} [DecidableEq K] : FDT K → PyVal → WDict K → RDict K → RDict K
  | .mk _ kind key children _ attrs, vLocal, d, res =>
    let ck := children.map FDT.keyOf
    let s := inferSv kind key ck d
    let res1 := rset res key vLocal
    let res2 := mkProductRec2List children s.2.2 d res1
    if truthy vLocal then
      attrs.foldl (fun r a =>
        match d a.key with
        | none => r
        | some (v, _) => rset r a.key v) res2
    else res2

/-- The zipped child loop of `_make_product_rec_2` (Python `zip`
truncates at the shorter sequence). -/
def mkProductRec2List {K : Type} [DecidableEq K] :
    List (FDT K) → List (Option PyVal) → WDict K → RDict K → RDict K
  | [], _, _, res => res
  | _ :: _, [], _, res => res
  | c :: cs, ov :: ovs, d, res =>
    mkProductRec2List cs ovs d (mkProductRec2 c (ov.getD (.bool false)) d res)

end

/-- `nf_product` (lines 691-711) on key-resolved partial products: ingest
the partials, run pass 1, read the root's inferred value (defaulting to
`False`), run pass 2 on an empty result dict.  The declaration-error
accumulator starts fresh and — keys being already resolved — receives
nothing. -/
def nfProduct {K : Type} [DecidableEq K] (fd : FDT K) (ps : List (Product K)) :
    RDict K × DeclErrors :=
  let d := mkProductRec1 fd (ingestAll ps)
  let res : RDict K := fun _ => none
  match d fd.keyOf with
  | none => (mkProductRec2 fd (.bool false) d res, DeclErrors.init)
  | some vi => (mkProductRec2 fd vi.1 d res, DeclErrors.init)

mutual

/-- All feature-node keys of a tree (the keys pass 2 writes as features). -/
def featKeys {K : Type} : FDT K → List K
  | .mk _ _ key children _ _ => key :: featKeysList children

/-- Feature-node keys of a forest. -/
def featKeysList {K : Type} : List (FDT K) → List K
  | [] => []
  | c :: cs => featKeys c ++ featKeysList cs

end

/-! ## C10: `nf_product()` with zero partials -/

/-- Invariant of the working dictionary during pass 1 when no partial
product was ingested: every entry is `(False, -1)`. -/
def wdAllFalse {K : Type} (d : WDict K) : Prop :=
  ∀ k, d k = none ∨ d k = some (.bool false, -1)

/-! ## C3: provenance of overlapping keys across partial products -/

/-- The counterexample tree for C3: `FDOr("r", FDAnd("a", FDAnd("c")))`. -/
def c3tree : FDT String :=
  .mk (some "r") .fdOr "r"
    [.mk (some "a") .fdAnd "a" [.mk (some "c") .fdAnd "c" [] [] []] [] []] [] []

/-! ## C4: what `nf_product` preserves of an (accepted) total product -/

mutual

/-- `f` is a total product for the tree: every node is named and `f` gives
it a Boolean, and `f` defines every attribute key. -/
def prodTotal {K : Type} (f : K → Option PyVal) : FDT K → Bool
  | .mk name _ key children _ attrs =>
    name.isSome &&
    ((match f key with
      | some (.bool _) => true
      | _ => false) &&
    (attrs.all (fun a => (f a.key).isSome) &&
     prodTotalList f children))

/-- `prodTotal` over a forest. -/
def prodTotalList {K : Type} (f : K → Option PyVal) : List (FDT K) → Bool
  | [] => true
  | c :: cs => prodTotal f c && prodTotalList f cs

end

mutual

/-- The attribute keys of the features the product `f` selects (the keys
whose values pass 2 copies into the result). -/
def trueAttrKeys {K : Type} (f : K → Option PyVal) : FDT K → List K
  | .mk _ _ key children _ attrs =>
    (match f key with
     | some v => if truthy v then attrs.map (·.key) else []
     | none => []) ++ trueAttrKeysList f children

/-- `trueAttrKeys` over a forest. -/
def trueAttrKeysList {K : Type} (f : K → Option PyVal) : List (FDT K) → List K
  | [] => []
  | c :: cs => trueAttrKeys f c ++ trueAttrKeysList f cs

end

/-- The working dictionary holds exactly the product `f`, every entry at
provenance index `0` (the state after ingesting the single partial, kept
invariant by pass 1 on all-named total products). -/
def wdIs {K : Type} (d : WDict K) (f : K → Option PyVal) : Prop :=
  ∀ k, d k = (f k).map (fun v => (v, 0))

/-- The counterexample FM for C4: `FDAnd("r", FDAny("a", FDAnd("t",
tv=Int(0,10))))`. -/
def c4tree : FDT String :=
  .mk (some "r") .fdAnd "r"
    [.mk (some "a") .fdAny "a"
      [.mk (some "t") .fdAnd "t" [] []
        [⟨"tv", fun v => match v with
          | .int n => decide (0 ≤ n ∧ n < 10)
          | _ => false, "tv"⟩]] [] []] [] []

/-- The counterexample product for C4: total, with the feature `t`
deselected and its attribute `tv` still given a value. -/
def c4pl : Product String :=
  [("r", .bool true), ("a", .bool true), ("t", .bool false), ("tv", .int 7)]

/-- The all-selected variant of the C4 product, for the witness. -/
def c4plT : Product String :=
  [("r", .bool true), ("a", .bool true), ("t", .bool true), ("tv", .int 7)]

/-- The `Xor` scan starting from an already-seen truthy element accepts
exactly the lists with no further truthy element. -/
theorem xorAux_true (l : List NVal) : xorAux l true = decide (l.countP truthyN = 0) := by
  induction l with
  | nil => simp [xorAux]
  | cons x xs ih =>
    by_cases hx : truthyN x = true
    · simp [xorAux, hx, List.countP_cons]
    · simp only [Bool.not_eq_true] at hx
      simp [xorAux, hx, List.countP_cons, ih]

/-- `Xor._compute__` returns `True` exactly when exactly one element is
truthy. -/
theorem xorAux_false (l : List NVal) : xorAux l false = decide (l.countP truthyN = 1) := by
  induction l with
  | nil => simp [xorAux]
  | cons x xs ih =>
    by_cases hx : truthyN x = true
    · simp [xorAux, hx, List.countP_cons, xorAux_true]
    · simp only [Bool.not_eq_true] at hx
      simp [xorAux, hx, List.countP_cons, ih]

/-- The `Conflict` scan after one truthy element accepts exactly the lists
with no further truthy element. -/
theorem conflictAux_true (l : List NVal) :
    conflictAux l true = decide (l.countP truthyN = 0) := by
  induction l with
  | nil => simp [conflictAux]
  | cons x xs ih =>
    by_cases hx : truthyN x = true
    · simp [conflictAux, hx, List.countP_cons]
    · simp only [Bool.not_eq_true] at hx
      simp [conflictAux, hx, List.countP_cons, ih]

/-- `Conflict._compute__` returns `True` exactly when at most one element is
truthy. -/
theorem conflictAux_false (l : List NVal) :
    conflictAux l false = decide (l.countP truthyN ≤ 1) := by
  induction l with
  | nil => simp [conflictAux]
  | cons x xs ih =>
    by_cases hx : truthyN x = true
    · simp [conflictAux, hx, List.countP_cons, conflictAux_true]
    · simp only [Bool.not_eq_true] at hx
      simp [conflictAux, hx, List.countP_cons, ih]

/-- `finishE` never changes the computed value. -/
theorem finishE_value {K : Type} (rs : List (ExpRes K)) (ce : OBool) (res : NVal)
    (expected : OBool) : (finishE rs ce res expected).value = res := by
  unfold finishE
  split <;> rfl

/-- On comparable values, Python `<` is defined. -/
theorem comparable_pyLtB {a b : PyVal} (h : comparableVals (some a) (some b) = true) :
    ∃ c, pyLtB a b = some c := by
  cases a <;> cases b <;> simp [comparableVals, toNum, pyLtB] at h ⊢

/-- On comparable values, Python `<=` is defined. -/
theorem comparable_pyLeB {a b : PyVal} (h : comparableVals (some a) (some b) = true) :
    ∃ c, pyLeB a b = some c := by
  cases a <;> cases b <;> simp [comparableVals, toNum, pyLeB] at h ⊢

/-- On comparable values, Python `>=` is defined. -/
theorem comparable_pyGeB {a b : PyVal} (h : comparableVals (some a) (some b) = true) :
    ∃ c, pyGeB a b = some c := by
  cases a <;> cases b <;> simp [comparableVals, toNum, pyGeB, pyLeB] at h ⊢

/-- On comparable values, Python `>` is defined. -/
theorem comparable_pyGtB {a b : PyVal} (h : comparableVals (some a) (some b) = true) :
    ∃ c, pyGtB a b = some c := by
  cases a <;> cases b <;> simp [comparableVals, toNum, pyGtB, pyLtB] at h ⊢

/-- `Implies._compute__` on two Booleans is the material implication. -/
theorem computeImplies_bool (x y : Bool) :
    computeImplies (.val (.bool x)) (.val (.bool y)) = .val (.bool (!x || y)) := by
  cases x <;> cases y <;> rfl

/-- Over a list of Boolean values, Python truthiness agrees with
"is the Boolean `True`". -/
theorem all_truthyN_of_bool {vs : List PyVal} (h : ∀ v ∈ vs, ∃ b, v = .bool b) :
    ((vs.map NVal.val).all truthyN) = vs.all isTrueV := by
  induction vs with
  | nil => rfl
  | cons v vs ih =>
    obtain ⟨b, hb⟩ := h v (by simp)
    subst hb
    simp only [List.map_cons, List.all_cons, ih (fun v hv => h v (by simp [hv]))]
    cases b <;> rfl

/-- Over a list of Boolean values, Python `any` agrees with the semantic
disjunction. -/
theorem any_truthyN_of_bool {vs : List PyVal} (h : ∀ v ∈ vs, ∃ b, v = .bool b) :
    ((vs.map NVal.val).any truthyN) = vs.any isTrueV := by
  induction vs with
  | nil => rfl
  | cons v vs ih =>
    obtain ⟨b, hb⟩ := h v (by simp)
    subst hb
    simp only [List.map_cons, List.any_cons, ih (fun v hv => h v (by simp [hv]))]
    cases b <;> rfl

/-- Over a list of Boolean values, the truthy count agrees with the count of
semantic `true`s. -/
theorem countP_truthyN_of_bool {vs : List PyVal} (h : ∀ v ∈ vs, ∃ b, v = .bool b) :
    ((vs.map NVal.val).countP truthyN) = vs.countP isTrueV := by
  induction vs with
  | nil => rfl
  | cons v vs ih =>
    obtain ⟨b, hb⟩ := h v (by simp)
    subst hb
    simp only [List.map_cons, List.countP_cons, ih (fun v hv => h v (by simp [hv]))]
    cases b <;> rfl

/-- Boolean equality of naturals is decidable equality. -/
theorem nat_beq_decide (m n : Nat) : (m == n) = decide (m = n) := by
  by_cases h : m = n <;> simp [h]

/-- Child-list evaluation agrees with the semantic values when every child
does (the inductive step of the C1 proof). -/
theorem evalListE_sem_step {K : Type} (p : K → Option PyVal) (es : List (Exp K))
    (IH : ∀ e ∈ es, ∀ expected, wfE p e = true →
      ∃ r v, evalE p e expected = .ok r ∧ semValue p e = some v ∧ r.value = .val v)
    (hwf : wfBoolList p es = true) (expected : OBool) :
    ∃ rs vs, evalListE p es expected = .ok rs ∧ semValueList p es = some vs ∧
      rs.map ExpRes.value = vs.map NVal.val ∧ ∀ v ∈ vs, ∃ b, v = .bool b := by
  induction es with
  | nil => exact ⟨[], [], rfl, rfl, rfl, by simp⟩
  | cons e es ih =>
    simp only [wfBoolList, Bool.and_eq_true] at hwf
    obtain ⟨⟨hw, hb⟩, hws⟩ := hwf
    obtain ⟨r, v, hr, hv, hrv⟩ := IH e (by simp) expected hw
    obtain ⟨rs, vs, hrs, hvs, hmap, hbool⟩ :=
      ih (fun x hx exp hwx => IH x (by simp [hx]) exp hwx) hws
    refine ⟨r :: rs, v :: vs, ?_, ?_, ?_, ?_⟩
    · simp [evalListE, hr, hrs]
    · simp only [semValueList, hv, hvs]
      rfl
    · simp [hmap, hrv]
    · intro w hw2
      rcases List.mem_cons.mp hw2 with h1 | h2
      · subst h1
        rw [hv] at hb
        cases w with
        | bool b => exact ⟨b, rfl⟩
        | int n => simp [boolVal] at hb
        | float q => simp [boolVal] at hb
        | str s => simp [boolVal] at hb
      · exact hbool w h2

/-- Strong-induction core of claim C1: on well-typed input, evaluation
returns (without raising) exactly the semantic reduction, whatever the
`expected` parameter (which only shapes reasons, not values). -/
theorem evalE_sem_aux {K : Type} (p : K → Option PyVal) :
    ∀ (N : Nat) (e : Exp K), sizeOf e ≤ N → ∀ (expected : OBool), wfE p e = true →
      ∃ r v, evalE p e expected = .ok r ∧ semValue p e = some v ∧ r.value = .val v := by
  intro N
  induction N with
  | zero =>
    intro e he
    exact absurd he (by cases e <;> simp)
  | succ N ih =>
    intro e he expected hwf
    cases e with
    | Var k =>
      simp only [wfE, Option.isSome_iff_exists] at hwf
      obtain ⟨v, hv⟩ := hwf
      exact ⟨⟨.val v, none⟩, v, by simp [evalE, hv], hv, rfl⟩
    | Lit v =>
      exact ⟨⟨.val v, none⟩, v, rfl, rfl, rfl⟩
    | Lt l r =>
      simp only [wfE, Bool.and_eq_true] at hwf
      obtain ⟨⟨hwl, hwr⟩, hcmp⟩ := hwf
      have hsl : sizeOf l ≤ N := by simp at he; omega
      have hsr : sizeOf r ≤ N := by simp at he; omega
      obtain ⟨rl, a, el, sl, vla⟩ := ih l hsl (getExpectedE (.Lt l r) expected) hwl
      obtain ⟨rr, b, er, sr, vrb⟩ := ih r hsr (getExpectedE (.Lt l r) expected) hwr
      rw [sl, sr] at hcmp
      obtain ⟨c, hc⟩ := comparable_pyLtB hcmp
      refine ⟨finishE [rl, rr] (getExpectedE (.Lt l r) expected) (.val (.bool c)) expected,
        .bool c, ?_, ?_, ?_⟩
      · simp only [evalE, el, er, vla, vrb, pyLtN, hc]
      · simp only [semValue, sl, sr]
        simp [hc]
      · exact finishE_value _ _ _ _
    | Leq l r =>
      simp only [wfE, Bool.and_eq_true] at hwf
      obtain ⟨⟨hwl, hwr⟩, hcmp⟩ := hwf
      have hsl : sizeOf l ≤ N := by simp at he; omega
      have hsr : sizeOf r ≤ N := by simp at he; omega
      obtain ⟨rl, a, el, sl, vla⟩ := ih l hsl (getExpectedE (.Leq l r) expected) hwl
      obtain ⟨rr, b, er, sr, vrb⟩ := ih r hsr (getExpectedE (.Leq l r) expected) hwr
      rw [sl, sr] at hcmp
      obtain ⟨c, hc⟩ := comparable_pyLeB hcmp
      refine ⟨finishE [rl, rr] (getExpectedE (.Leq l r) expected) (.val (.bool c)) expected,
        .bool c, ?_, ?_, ?_⟩
      · simp only [evalE, el, er, vla, vrb, pyLeN, hc]
      · simp only [semValue, sl, sr]
        simp [hc]
      · exact finishE_value _ _ _ _
    | Eq l r =>
      simp only [wfE, Bool.and_eq_true] at hwf
      obtain ⟨⟨⟨hwl, hwr⟩, hdl⟩, hdr⟩ := hwf
      have hsl : sizeOf l ≤ N := by simp at he; omega
      have hsr : sizeOf r ≤ N := by simp at he; omega
      obtain ⟨rl, a, el, sl, vla⟩ := ih l hsl (getExpectedE (.Eq l r) expected) hwl
      obtain ⟨rr, b, er, sr, vrb⟩ := ih r hsr (getExpectedE (.Eq l r) expected) hwr
      refine ⟨finishE [rl, rr] (getExpectedE (.Eq l r) expected)
        (.val (.bool (pyEq a b))) expected, .bool (pyEq a b), ?_, ?_, ?_⟩
      · simp only [evalE, el, er, vla, vrb, pyEqN]
      · simp only [semValue, sl, sr]
        rfl
      · exact finishE_value _ _ _ _
    | Geq l r =>
      simp only [wfE, Bool.and_eq_true] at hwf
      obtain ⟨⟨hwl, hwr⟩, hcmp⟩ := hwf
      have hsl : sizeOf l ≤ N := by simp at he; omega
      have hsr : sizeOf r ≤ N := by simp at he; omega
      obtain ⟨rl, a, el, sl, vla⟩ := ih l hsl (getExpectedE (.Geq l r) expected) hwl
      obtain ⟨rr, b, er, sr, vrb⟩ := ih r hsr (getExpectedE (.Geq l r) expected) hwr
      rw [sl, sr] at hcmp
      obtain ⟨c, hc⟩ := comparable_pyGeB hcmp
      refine ⟨finishE [rl, rr] (getExpectedE (.Geq l r) expected) (.val (.bool c)) expected,
        .bool c, ?_, ?_, ?_⟩
      · simp only [evalE, el, er, vla, vrb, pyGeN, hc]
      · simp only [semValue, sl, sr]
        simp [hc]
      · exact finishE_value _ _ _ _
    | Gt l r =>
      simp only [wfE, Bool.and_eq_true] at hwf
      obtain ⟨⟨hwl, hwr⟩, hcmp⟩ := hwf
      have hsl : sizeOf l ≤ N := by simp at he; omega
      have hsr : sizeOf r ≤ N := by simp at he; omega
      obtain ⟨rl, a, el, sl, vla⟩ := ih l hsl (getExpectedE (.Gt l r) expected) hwl
      obtain ⟨rr, b, er, sr, vrb⟩ := ih r hsr (getExpectedE (.Gt l r) expected) hwr
      rw [sl, sr] at hcmp
      obtain ⟨c, hc⟩ := comparable_pyGtB hcmp
      refine ⟨finishE [rl, rr] (getExpectedE (.Gt l r) expected) (.val (.bool c)) expected,
        .bool c, ?_, ?_, ?_⟩
      · simp only [evalE, el, er, vla, vrb, pyGtN, hc]
      · simp only [semValue, sl, sr]
        simp [hc]
      · exact finishE_value _ _ _ _
    | And args =>
      simp only [wfE] at hwf
      have hsargs : sizeOf args ≤ N := by simp at he; omega
      have IH : ∀ e ∈ args, ∀ exp, wfE p e = true →
          ∃ r v, evalE p e exp = .ok r ∧ semValue p e = some v ∧ r.value = .val v :=
        fun e hm exp hw =>
          ih e (Nat.le_of_lt (Nat.lt_of_lt_of_le (List.sizeOf_lt_of_mem hm) hsargs)) exp hw
      obtain ⟨rs, vs, hrs, hvs, hmap, hbool⟩ :=
        evalListE_sem_step p args IH hwf (getExpectedE (.And args) expected)
      refine ⟨finishE rs (getExpectedE (.And args) expected) (.val (.bool ((rs.map ExpRes.value).all truthyN))) expected,
        .bool (vs.all isTrueV), ?_, ?_, ?_⟩
      · simp only [evalE, hrs]
      · simp only [semValue, hvs]
        rfl
      · rw [finishE_value, hmap, all_truthyN_of_bool hbool]
    | Or args =>
      simp only [wfE] at hwf
      have hsargs : sizeOf args ≤ N := by simp at he; omega
      have IH : ∀ e ∈ args, ∀ exp, wfE p e = true →
          ∃ r v, evalE p e exp = .ok r ∧ semValue p e = some v ∧ r.value = .val v :=
        fun e hm exp hw =>
          ih e (Nat.le_of_lt (Nat.lt_of_lt_of_le (List.sizeOf_lt_of_mem hm) hsargs)) exp hw
      obtain ⟨rs, vs, hrs, hvs, hmap, hbool⟩ :=
        evalListE_sem_step p args IH hwf (getExpectedE (.Or args) expected)
      refine ⟨finishE rs (getExpectedE (.Or args) expected) (.val (.bool ((rs.map ExpRes.value).any truthyN))) expected,
        .bool (vs.any isTrueV), ?_, ?_, ?_⟩
      · simp only [evalE, hrs]
      · simp only [semValue, hvs]
        rfl
      · rw [finishE_value, hmap, any_truthyN_of_bool hbool]
    | Not arg =>
      simp only [wfE, Bool.and_eq_true] at hwf
      obtain ⟨hwa, hba⟩ := hwf
      have hsa : sizeOf arg ≤ N := by simp at he; omega
      obtain ⟨ra, a, ea, sa, vaa⟩ := ih arg hsa (getExpectedE (.Not arg) expected) hwa
      rw [sa] at hba
      obtain ⟨ba, hb⟩ : ∃ x, a = PyVal.bool x := by
        cases a <;> simp [boolVal] at hba ⊢
      subst hb
      refine ⟨finishE [ra] (getExpectedE (.Not arg) expected)
        (.val (.bool (!ba))) expected, .bool (!ba), ?_, ?_, ?_⟩
      · simp only [evalE, ea, vaa]
        cases ba <;> rfl
      · simp only [semValue, sa]
        cases ba <;> rfl
      · exact finishE_value _ _ _ _
    | Xor args =>
      simp only [wfE] at hwf
      have hsargs : sizeOf args ≤ N := by simp at he; omega
      have IH : ∀ e ∈ args, ∀ exp, wfE p e = true →
          ∃ r v, evalE p e exp = .ok r ∧ semValue p e = some v ∧ r.value = .val v :=
        fun e hm exp hw =>
          ih e (Nat.le_of_lt (Nat.lt_of_lt_of_le (List.sizeOf_lt_of_mem hm) hsargs)) exp hw
      obtain ⟨rs, vs, hrs, hvs, hmap, hbool⟩ :=
        evalListE_sem_step p args IH hwf (getExpectedE (.Xor args) expected)
      refine ⟨finishE rs (getExpectedE (.Xor args) expected)
        (.val (.bool (xorAux (rs.map ExpRes.value) false))) expected,
        .bool (vs.countP isTrueV == 1), ?_, ?_, ?_⟩
      · simp only [evalE, hrs]
      · simp only [semValue, hvs]
        rfl
      · rw [finishE_value, hmap, xorAux_false, countP_truthyN_of_bool hbool,
          nat_beq_decide]
    | Conflict args =>
      simp only [wfE] at hwf
      have hsargs : sizeOf args ≤ N := by simp at he; omega
      have IH : ∀ e ∈ args, ∀ exp, wfE p e = true →
          ∃ r v, evalE p e exp = .ok r ∧ semValue p e = some v ∧ r.value = .val v :=
        fun e hm exp hw =>
          ih e (Nat.le_of_lt (Nat.lt_of_lt_of_le (List.sizeOf_lt_of_mem hm) hsargs)) exp hw
      obtain ⟨rs, vs, hrs, hvs, hmap, hbool⟩ :=
        evalListE_sem_step p args IH hwf (getExpectedE (.Conflict args) expected)
      refine ⟨finishE rs (getExpectedE (.Conflict args) expected)
        (.val (.bool (conflictAux (rs.map ExpRes.value) false))) expected,
        .bool (decide (vs.countP isTrueV ≤ 1)), ?_, ?_, ?_⟩
      · simp only [evalE, hrs]
      · simp only [semValue, hvs]
        rfl
      · rw [finishE_value, hmap, conflictAux_false, countP_truthyN_of_bool hbool]
    | Implies l r =>
      simp only [wfE, Bool.and_eq_true] at hwf
      obtain ⟨⟨⟨hwl, hwr⟩, hbl⟩, hbr⟩ := hwf
      have hsl : sizeOf l ≤ N := by simp at he; omega
      have hsr : sizeOf r ≤ N := by simp at he; omega
      obtain ⟨rl, a, el, sl, vla⟩ := ih l hsl (getExpectedE (.Implies l r) expected) hwl
      obtain ⟨rr, b, er, sr, vrb⟩ := ih r hsr (getExpectedE (.Implies l r) expected) hwr
      rw [sl] at hbl
      rw [sr] at hbr
      obtain ⟨ba, hba⟩ : ∃ x, a = PyVal.bool x := by
        cases a <;> simp [boolVal] at hbl ⊢
      obtain ⟨bb, hbb⟩ : ∃ x, b = PyVal.bool x := by
        cases b <;> simp [boolVal] at hbr ⊢
      subst hba
      subst hbb
      refine ⟨finishE [rl, rr] (getExpectedE (.Implies l r) expected)
        (.val (.bool (!ba || bb))) expected, .bool (!ba || bb), ?_, ?_, ?_⟩
      · simp only [evalE, el, er, vla, vrb, computeImplies_bool]
      · simp only [semValue, sl, sr]
        cases ba <;> cases bb <;> rfl
      · exact finishE_value _ _ _ _
    | Iff l r =>
      simp only [wfE, Bool.and_eq_true] at hwf
      obtain ⟨⟨⟨hwl, hwr⟩, hdl⟩, hdr⟩ := hwf
      have hsl : sizeOf l ≤ N := by simp at he; omega
      have hsr : sizeOf r ≤ N := by simp at he; omega
      obtain ⟨rl, a, el, sl, vla⟩ := ih l hsl (getExpectedE (.Iff l r) expected) hwl
      obtain ⟨rr, b, er, sr, vrb⟩ := ih r hsr (getExpectedE (.Iff l r) expected) hwr
      refine ⟨finishE [rl, rr] (getExpectedE (.Iff l r) expected)
        (.val (.bool (pyEq a b))) expected, .bool (pyEq a b), ?_, ?_, ?_⟩
      · simp only [evalE, el, er, vla, vrb, pyEqN]
      · simp only [semValue, sl, sr]
        rfl
      · exact finishE_value _ _ _ _

/-- C1: For every constraint expression over `Var`/`Lit` leaves and every
total, well-typed product (Boolean values under logical operators,
comparable values under relational ones), evaluation returns the standard
semantic reduction: `And` true iff all children true, `Or` iff any, `Not`
negates, `Implies(a,b) = (not a) or b`, `Iff(a,b) = (a == b)`, relational
operators compare the two child values, `Xor` true iff exactly one child is
true (so `Xor()` of zero children is false), `Conflict` true iff at most one
child is true (so `Conflict()` of zero children is true). -/
theorem C1_eval_is_semantic_reduction {K : Type} (p : K → Option PyVal) (e : Exp K)
    (hwf : wfE p e = true) :
    (∃ r v, evalE p e (some true) = .ok r ∧ semValue p e = some v ∧ r.value = .val v) ∧
    (evalE p (Exp.Xor ([] : List (Exp K))) (some true)).map ExpRes.value
      = .ok (.val (.bool false)) ∧
    (evalE p (Exp.Conflict ([] : List (Exp K))) (some true)).map ExpRes.value
      = .ok (.val (.bool true)) :=
  ⟨evalE_sem_aux p (sizeOf e) e le_rfl (some true) hwf, rfl, rfl⟩

/-- Witness for C1 at a concrete expression and product:
`Xor(Var "x", Lit True)` over the product `{x: False}` is well-typed, and
the claim theorem applies to it. -/
theorem C1_eval_is_semantic_reduction_witness :
    wfE (fun _ : String => some (PyVal.bool false))
        (Exp.Xor [.Var "x", .Lit (.bool true)]) = true ∧
    ((∃ r v, evalE (fun _ : String => some (PyVal.bool false))
          (Exp.Xor [.Var "x", .Lit (.bool true)]) (some true) = .ok r ∧
        semValue (fun _ : String => some (PyVal.bool false))
          (Exp.Xor [.Var "x", .Lit (.bool true)]) = some v ∧ r.value = .val v) ∧
      (evalE (fun _ : String => some (PyVal.bool false))
          (Exp.Xor ([] : List (Exp String))) (some true)).map ExpRes.value
        = .ok (.val (.bool false)) ∧
      (evalE (fun _ : String => some (PyVal.bool false))
          (Exp.Conflict ([] : List (Exp String))) (some true)).map ExpRes.value
        = .ok (.val (.bool true))) :=
  ⟨by decide, C1_eval_is_semantic_reduction _ _ (by decide)⟩

/-- `finishE` produces no reason exactly when the computed value equals the
expected one (Python `==`). -/
theorem finishE_reason_none {K : Type} (rs : List (ExpRes K)) (ce : OBool) (res : NVal)
    (expected : OBool) :
    ((finishE rs ce res expected).reason = none) ↔ beqNVO res expected = true := by
  unfold finishE
  split <;> simp_all

/-- When `finishE` produces a reason, its local list has exactly one
value-mismatch entry per child (recording the child's value and the common
child expectation), and its subs are the non-empty child reasons. -/
theorem finishE_reason_some {K : Type} (rs : List (ExpRes K)) (ce : OBool) (res : NVal)
    (expected : OBool) (t : RTree K) (h : (finishE rs ce res expected).reason = some t) :
    t.localsOf = rs.map (fun ri => .mismatch ri.value ce) ∧ t.subsOf = subsFrom rs := by
  unfold finishE at h
  split at h
  · simp at h
  · simp only [Option.some.injEq] at h
    subst h
    exact ⟨rfl, rfl⟩

/-- Inversion of child-list evaluation for a two-child tuple. -/
theorem evalListE_pair_inv {K : Type} {p : K → Option PyVal} {l r : Exp K} {ce : OBool}
    {rs : List (ExpRes K)} (h : evalListE p [l, r] ce = .ok rs) :
    ∃ rl rr, evalE p l ce = .ok rl ∧ evalE p r ce = .ok rr ∧ rs = [rl, rr] := by
  cases hl : evalE p l ce with
  | error e => simp [evalListE, hl] at h
  | ok rl =>
    cases hr : evalE p r ce with
    | error e => simp [evalListE, hl, hr] at h
    | ok rr =>
      simp [evalListE, hl, hr] at h
      exact ⟨rl, rr, rfl, rfl, h.symm⟩

/-- Inversion of child-list evaluation for a one-child tuple. -/
theorem evalListE_one_inv {K : Type} {p : K → Option PyVal} {a : Exp K} {ce : OBool}
    {rs : List (ExpRes K)} (h : evalListE p [a] ce = .ok rs) :
    ∃ ra, evalE p a ce = .ok ra ∧ rs = [ra] := by
  cases ha : evalE p a ce with
  | error e => simp [evalListE, ha] at h
  | ok ra =>
    simp [evalListE, ha] at h
    exact ⟨ra, rfl, h.symm⟩

/-- The two reason-shape facts about `finishE`, packaged on its output. -/
theorem finishE_amended {K : Type} (rs : List (ExpRes K)) (ce : OBool) (res : NVal)
    (expected : OBool) :
    (((finishE rs ce res expected).reason = none) ↔
      beqNVO (finishE rs ce res expected).value expected = true) ∧
    (∀ t, (finishE rs ce res expected).reason = some t →
      t.localsOf = rs.map (fun ri => LReason.mismatch ri.value ce) ∧
      t.subsOf = subsFrom rs) := by
  constructor
  · rw [finishE_value]
    exact finishE_reason_none rs ce res expected
  · exact finishE_reason_some rs ce res expected

/-- C6 (amended): when a composite expression node evaluates, its reason is
empty exactly when the computed value Python-equals the expected value;
otherwise the reason tree carries one value-mismatch local entry for EVERY
child (recording that child's result value and the propagated expectation
`expected_i`), regardless of whether the child matched its expectation, and
every child's non-empty sub-reason is attached. -/
theorem C6_composite_reason_shape {K : Type} (p : K → Option PyVal) (e : Exp K)
    (expected : OBool) (rs : List (ExpRes K)) (r : ExpRes K)
    (hcomp : isComposite e = true)
    (hrs : evalListE p (childExps e) (getExpectedE e expected) = .ok rs)
    (her : evalE p e expected = .ok r) :
    ((r.reason = none) ↔ beqNVO r.value expected = true) ∧
    (∀ t, r.reason = some t →
      t.localsOf = rs.map (fun ri => LReason.mismatch ri.value (getExpectedE e expected)) ∧
      t.subsOf = subsFrom rs) := by
  cases e with
    | Var k => simp [isComposite] at hcomp
    | Lit v => simp [isComposite] at hcomp
    | Lt l r =>
      obtain ⟨rl, rr, el, er, rfl⟩ := evalListE_pair_inv hrs
      simp only [evalE, el, er] at her
      cases hp : pyLtN rl.value rr.value with
      | none =>
        rw [hp] at her
        exact absurd her (by simp)
      | some c =>
        rw [hp] at her
        simp only [Except.ok.injEq] at her
        subst her
        exact finishE_amended _ _ _ _
    | Leq l r =>
      obtain ⟨rl, rr, el, er, rfl⟩ := evalListE_pair_inv hrs
      simp only [evalE, el, er] at her
      cases hp : pyLeN rl.value rr.value with
      | none =>
        rw [hp] at her
        exact absurd her (by simp)
      | some c =>
        rw [hp] at her
        simp only [Except.ok.injEq] at her
        subst her
        exact finishE_amended _ _ _ _
    | Eq l r =>
      obtain ⟨rl, rr, el, er, rfl⟩ := evalListE_pair_inv hrs
      simp only [evalE, el, er, Except.ok.injEq] at her
      subst her
      exact finishE_amended _ _ _ _
    | Geq l r =>
      obtain ⟨rl, rr, el, er, rfl⟩ := evalListE_pair_inv hrs
      simp only [evalE, el, er] at her
      cases hp : pyGeN rl.value rr.value with
      | none =>
        rw [hp] at her
        exact absurd her (by simp)
      | some c =>
        rw [hp] at her
        simp only [Except.ok.injEq] at her
        subst her
        exact finishE_amended _ _ _ _
    | Gt l r =>
      obtain ⟨rl, rr, el, er, rfl⟩ := evalListE_pair_inv hrs
      simp only [evalE, el, er] at her
      cases hp : pyGtN rl.value rr.value with
      | none =>
        rw [hp] at her
        exact absurd her (by simp)
      | some c =>
        rw [hp] at her
        simp only [Except.ok.injEq] at her
        subst her
        exact finishE_amended _ _ _ _
    | And args =>
      simp only [childExps] at hrs
      simp only [evalE] at her
      rw [hrs] at her
      simp only [Except.ok.injEq] at her
      subst her
      exact finishE_amended _ _ _ _
    | Or args =>
      simp only [childExps] at hrs
      simp only [evalE] at her
      rw [hrs] at her
      simp only [Except.ok.injEq] at her
      subst her
      exact finishE_amended _ _ _ _
    | Not a =>
      obtain ⟨ra, ea, rfl⟩ := evalListE_one_inv hrs
      simp only [evalE, ea, Except.ok.injEq] at her
      subst her
      exact finishE_amended _ _ _ _
    | Xor args =>
      simp only [childExps] at hrs
      simp only [evalE] at her
      rw [hrs] at her
      simp only [Except.ok.injEq] at her
      subst her
      exact finishE_amended _ _ _ _
    | Conflict args =>
      simp only [childExps] at hrs
      simp only [evalE] at her
      rw [hrs] at her
      simp only [Except.ok.injEq] at her
      subst her
      exact finishE_amended _ _ _ _
    | Implies l r =>
      obtain ⟨rl, rr, el, er, rfl⟩ := evalListE_pair_inv hrs
      simp only [evalE, el, er, Except.ok.injEq] at her
      subst her
      exact finishE_amended _ _ _ _
    | Iff l r =>
      obtain ⟨rl, rr, el, er, rfl⟩ := evalListE_pair_inv hrs
      simp only [evalE, el, er, Except.ok.injEq] at her
      subst her
      exact finishE_amended _ _ _ _

/-- Counterexample to C6 as stated: evaluating `And(Lit True, Lit False)`
with `expected = True` computes `False` and builds a reason whose FIRST
local entry is a value-mismatch for the first child, even though that
child's value (`True`) equals (Python `==`) its propagated expectation
(`True`).  The claim says such a child contributes no value-mismatch
entry. -/
theorem C6_counterexample :
    evalE (fun _ : String => none) (Exp.And [.Lit (.bool true), .Lit (.bool false)])
        (some true)
      = .ok ⟨.val (.bool false),
          some (.mk [.mismatch (.val (.bool true)) (some true),
                     .mismatch (.val (.bool false)) (some true)] [])⟩ ∧
    pyEqN (.val (.bool true)) (.val (.bool true)) = true :=
  ⟨rfl, rfl⟩

/-- Witness for C6 (amended) at `And(Lit True, Lit False)`. -/
theorem C6_composite_reason_shape_witness :
    isComposite c6exp = true ∧
    evalListE (fun _ : String => none) (childExps c6exp) (getExpectedE c6exp (some true))
      = .ok c6rs ∧
    evalE (fun _ : String => none) c6exp (some true) = .ok c6res ∧
    ((c6res.reason = none ↔ beqNVO c6res.value (some true) = true) ∧
      (∀ t, c6res.reason = some t →
        t.localsOf = c6rs.map
          (fun ri => LReason.mismatch ri.value (getExpectedE c6exp (some true))) ∧
        t.subsOf = subsFrom c6rs)) :=
  ⟨rfl, rfl, rfl,
    C6_composite_reason_shape (fun _ : String => none) c6exp (some true) c6rs c6res
      rfl rfl rfl⟩

/-- C7 (the code is wrong here): after `add_ambiguous(name, path, paths)` on a
fresh accumulator, the ambiguities list is still empty and
`has_ambiguities()` is still false, while the unbounds list received the
ambiguous entry — the claim (and the class's own design: `has_ambiguities`
reads `m_ambiguities`) expects the entry in the ambiguities list. -/
theorem C7_addAmbiguous_goes_to_unbounds :
    (DeclErrors.addAmbiguous DeclErrors.init "x" none [["a"], ["b"]]).m_ambiguities = [] ∧
    (DeclErrors.addAmbiguous DeclErrors.init "x" none [["a"], ["b"]]).hasAmbiguities
      = false ∧
    (DeclErrors.addAmbiguous DeclErrors.init "x" none [["a"], ["b"]]).m_unbounds
      = [.ambiguous "x" none [["a"], ["b"]]] :=
  ⟨rfl, rfl, rfl⟩

/-- C9: the `Int` domain accepts exactly the int-typed values (Python
Booleans included, being `int`s with values 0 and 1) lying in one of its
intervals.  `Int(0, None)` builds the single interval `[0, ∞)`: it accepts
exactly the int-typed values `≥ 0` (so every non-negative integer) and
rejects every float.  `Int(0)` desugars the bare `0` to the interval
`[0, 1)`: it accepts exactly the int-typed values equal to `0` (the integer
`0`, and Python's `False`, which is the `int` `0`). -/
theorem C9_int_domain :
    IntSpec.make [.num 0, .noneA] = .ok ⟨[(some 0, none)]⟩ ∧
    (∀ v, IntSpec.call ⟨[(some 0, none)]⟩ v
      = (isinstInt v && decide (0 ≤ (toNum v).getD 0))) ∧
    (∀ n : ℤ, 0 ≤ n → IntSpec.call ⟨[(some 0, none)]⟩ (.int n) = true) ∧
    (∀ q : ℚ, IntSpec.call ⟨[(some 0, none)]⟩ (.float q) = false) ∧
    IntSpec.make [.num 0] = .ok ⟨[(some 0, some 1)]⟩ ∧
    (∀ v, IntSpec.call ⟨[(some 0, some 1)]⟩ v = true ↔
      (isinstInt v = true ∧ (toNum v).getD 0 = 0)) := by
  refine ⟨by decide, ?_, ?_, ?_, ?_, ?_⟩
  case refine_4 =>
    show (addDomainSpecLoop [.num 0]).map IntSpec.mk = _
    norm_num [addDomainSpecLoop, Except.map]
  · intro v
    cases v with
    | int n =>
      simp only [IntSpec.call, isinstInt, checkDomain, checkInterval, toNum, List.any_cons,
        List.any_nil, if_true, Option.getD_some, Bool.true_and]
      by_cases h : (n : ℚ) < 0
      · simp [h, not_le.mpr h]
      · simp [h, not_lt.mp h]
    | bool b =>
      cases b <;> simp [IntSpec.call, isinstInt, checkDomain, checkInterval, toNum]
    | float q => rfl
    | str s => rfl
  · intro n hn
    simp only [IntSpec.call, isinstInt, checkDomain, checkInterval, toNum, List.any_cons,
      List.any_nil, if_true, Option.getD_some]
    have h : ¬((n : ℚ) < 0) := by
      rw [not_lt]
      exact_mod_cast hn
    simp [h]
  · intro q
    rfl
  · intro v
    cases v with
    | int n =>
      simp only [IntSpec.call, isinstInt, checkDomain, checkInterval, toNum, List.any_cons,
        List.any_nil, if_true, Option.getD_some]
      constructor
      · intro h
        refine ⟨by trivial, ?_⟩
        by_cases h0 : (n : ℚ) < 0
        · simp [h0] at h
        · by_cases h1 : (n : ℚ) ≥ 1
          · simp [h0, h1] at h
          · have hn0 : (0 : ℤ) ≤ n := by exact_mod_cast not_lt.mp h0
            have hn1 : n < 1 := by exact_mod_cast not_le.mp h1
            have : n = 0 := by omega
            simp [this]
      · rintro ⟨-, h⟩
        have : (n : ℚ) = 0 := h
        have hn : n = 0 := by exact_mod_cast this
        subst hn
        simp [checkInterval]
    | bool b =>
      cases b <;>
        simp [IntSpec.call, isinstInt, checkDomain, checkInterval, toNum]
    | float q => simp [IntSpec.call, isinstInt]
    | str s => simp [IntSpec.call, isinstInt]

/-- Witness for C9 at the concrete input `3`: the non-negativity hypothesis
of the third conjunct is discharged at `n = 3`. -/
theorem C9_int_domain_witness :
    (0 : ℤ) ≤ 3 ∧ IntSpec.call ⟨[(some 0, none)]⟩ (.int 3) = true :=
  ⟨by decide, C9_int_domain.2.2.1 3 (by decide)⟩

/-- Resolution is the identity on `Var`-free child lists (list form,
parameterized by the member property). -/
theorem checkDeclsList_id_of (es : List (Exp CKey))
    (IH : ∀ e ∈ es, expNoVar e = true → ∀ path mapping errors,
      checkDecls path mapping e errors = .ok (e, errors))
    (h : expNoVarList es = true) (path : Path) (mapping : Lookup)
    (errors : DeclErrors) : checkDeclsList path mapping es errors = .ok (es, errors) := by
  induction es with
  | nil => rfl
  | cons e es ih =>
    simp only [expNoVarList, Bool.and_eq_true] at h
    simp only [checkDeclsList, IH e (by simp) h.1 path mapping errors,
      ih (fun x hx => IH x (by simp [hx])) h.2]

/-- Resolution (`_check_declarations__`) is the identity on `Var`-free
expressions and adds no error. -/
theorem checkDecls_id : ∀ (N : Nat) (e : Exp CKey), sizeOf e ≤ N →
    expNoVar e = true → ∀ (path : Path) (mapping : Lookup) (errors : DeclErrors),
    checkDecls path mapping e errors = .ok (e, errors) := by
  intro N
  induction N with
  | zero =>
    intro e he
    exact absurd he (by cases e <;> simp)
  | succ N ih =>
    intro e he hnv path mapping errors
    cases e with
    | Var k => simp [expNoVar] at hnv
    | Lit v => rfl
    | Lt l r =>
      simp only [expNoVar, Bool.and_eq_true] at hnv
      have hsl : sizeOf l ≤ N := by simp at he; omega
      have hsr : sizeOf r ≤ N := by simp at he; omega
      simp only [checkDecls, ih l hsl hnv.1 path mapping errors,
        ih r hsr hnv.2 path mapping errors]
    | Leq l r =>
      simp only [expNoVar, Bool.and_eq_true] at hnv
      have hsl : sizeOf l ≤ N := by simp at he; omega
      have hsr : sizeOf r ≤ N := by simp at he; omega
      simp only [checkDecls, ih l hsl hnv.1 path mapping errors,
        ih r hsr hnv.2 path mapping errors]
    | Eq l r =>
      simp only [expNoVar, Bool.and_eq_true] at hnv
      have hsl : sizeOf l ≤ N := by simp at he; omega
      have hsr : sizeOf r ≤ N := by simp at he; omega
      simp only [checkDecls, ih l hsl hnv.1 path mapping errors,
        ih r hsr hnv.2 path mapping errors]
    | Geq l r =>
      simp only [expNoVar, Bool.and_eq_true] at hnv
      have hsl : sizeOf l ≤ N := by simp at he; omega
      have hsr : sizeOf r ≤ N := by simp at he; omega
      simp only [checkDecls, ih l hsl hnv.1 path mapping errors,
        ih r hsr hnv.2 path mapping errors]
    | Gt l r =>
      simp only [expNoVar, Bool.and_eq_true] at hnv
      have hsl : sizeOf l ≤ N := by simp at he; omega
      have hsr : sizeOf r ≤ N := by simp at he; omega
      simp only [checkDecls, ih l hsl hnv.1 path mapping errors,
        ih r hsr hnv.2 path mapping errors]
    | Implies l r =>
      simp only [expNoVar, Bool.and_eq_true] at hnv
      have hsl : sizeOf l ≤ N := by simp at he; omega
      have hsr : sizeOf r ≤ N := by simp at he; omega
      simp only [checkDecls, ih l hsl hnv.1 path mapping errors,
        ih r hsr hnv.2 path mapping errors]
    | Iff l r =>
      simp only [expNoVar, Bool.and_eq_true] at hnv
      have hsl : sizeOf l ≤ N := by simp at he; omega
      have hsr : sizeOf r ≤ N := by simp at he; omega
      simp only [checkDecls, ih l hsl hnv.1 path mapping errors,
        ih r hsr hnv.2 path mapping errors]
    | Not a =>
      simp only [expNoVar] at hnv
      have hsa : sizeOf a ≤ N := by simp at he; omega
      simp only [checkDecls, ih a hsa hnv path mapping errors]
    | And args =>
      simp only [expNoVar] at hnv
      have hsargs : sizeOf args ≤ N := by simp at he; omega
      have IH2 : ∀ e ∈ args, expNoVar e = true → ∀ path mapping errors,
          checkDecls path mapping e errors = .ok (e, errors) :=
        fun e hm hv =>
          ih e (Nat.le_of_lt (Nat.lt_of_lt_of_le (List.sizeOf_lt_of_mem hm) hsargs)) hv
      simp only [checkDecls, checkDeclsList_id_of args IH2 hnv path mapping errors]
    | Or args =>
      simp only [expNoVar] at hnv
      have hsargs : sizeOf args ≤ N := by simp at he; omega
      have IH2 : ∀ e ∈ args, expNoVar e = true → ∀ path mapping errors,
          checkDecls path mapping e errors = .ok (e, errors) :=
        fun e hm hv =>
          ih e (Nat.le_of_lt (Nat.lt_of_lt_of_le (List.sizeOf_lt_of_mem hm) hsargs)) hv
      simp only [checkDecls, checkDeclsList_id_of args IH2 hnv path mapping errors]
    | Xor args =>
      simp only [expNoVar] at hnv
      have hsargs : sizeOf args ≤ N := by simp at he; omega
      have IH2 : ∀ e ∈ args, expNoVar e = true → ∀ path mapping errors,
          checkDecls path mapping e errors = .ok (e, errors) :=
        fun e hm hv =>
          ih e (Nat.le_of_lt (Nat.lt_of_lt_of_le (List.sizeOf_lt_of_mem hm) hsargs)) hv
      simp only [checkDecls, checkDeclsList_id_of args IH2 hnv path mapping errors]
    | Conflict args =>
      simp only [expNoVar] at hnv
      have hsargs : sizeOf args ≤ N := by simp at he; omega
      have IH2 : ∀ e ∈ args, expNoVar e = true → ∀ path mapping errors,
          checkDecls path mapping e errors = .ok (e, errors) :=
        fun e hm hv =>
          ih e (Nat.le_of_lt (Nat.lt_of_lt_of_le (List.sizeOf_lt_of_mem hm) hsargs)) hv
      simp only [checkDecls, checkDeclsList_id_of args IH2 hnv path mapping errors]

/-- The children loop of the lookup pass leaves a `Var`-free-ctcs forest
unchanged (list form, parameterized by the member property). -/
theorem generateLookupRecList_noVar_of (cs : List (FDT CKey))
    (IH : ∀ c ∈ cs, fdNoVarCtcs c = true → ∀ path idx st,
      ∃ st2, generateLookupRec c path idx st = .ok (c, st2))
    (h : fdNoVarCtcsList cs = true) : ∀ (path : Path) (i : Nat) (st : LookupState),
    ∃ st2, generateLookupRecList cs path i st = .ok (cs, st2) := by
  induction cs with
  | nil => exact fun path i st => ⟨st, rfl⟩
  | cons c cs ihl =>
    intro path i st
    simp only [fdNoVarCtcsList, Bool.and_eq_true] at h
    obtain ⟨st1, h1⟩ := IH c (by simp) h.1 path i st
    obtain ⟨st2, h2⟩ := ihl (fun x hx => IH x (by simp [hx])) h.2 path (i + 1) st1
    exact ⟨st2, by simp only [generateLookupRecList, h1, h2]⟩

/-- The lookup pass never raises and leaves the tree unchanged when no
cross-tree constraint contains a `Var`. -/
theorem generateLookupRec_noVar : ∀ (N : Nat) (t : FDT CKey), sizeOf t ≤ N →
    fdNoVarCtcs t = true → ∀ (path : Path) (idx : Nat) (st : LookupState),
    ∃ st2, generateLookupRec t path idx st = .ok (t, st2) := by
  intro N
  induction N with
  | zero =>
    intro t ht
    exact absurd ht (by cases t; simp)
  | succ N ih =>
    intro t ht hnv path idx st
    cases t with
    | mk name kind key children ctcs attrs =>
      simp only [fdNoVarCtcs, Bool.and_eq_true] at hnv
      have hsc : sizeOf children ≤ N := by simp at ht; omega
      have IHmem : ∀ c ∈ children, fdNoVarCtcs c = true → ∀ path idx st,
          ∃ st2, generateLookupRec c path idx st = .ok (c, st2) :=
        fun c hm hv =>
          ih c (Nat.le_of_lt (Nat.lt_of_lt_of_le (List.sizeOf_lt_of_mem hm) hsc)) hv
      have IHe : ∀ e ∈ ctcs, expNoVar e = true → ∀ path mapping errors,
          checkDecls path mapping e errors = .ok (e, errors) :=
        fun e _ hv => checkDecls_id (sizeOf e) e le_rfl hv
      obtain ⟨stc, hc⟩ := generateLookupRecList_noVar_of children IHmem hnv.2
        (path ++ [segOf name idx]) 0 (glStage1 name (path ++ [segOf name idx]) st)
      exact ⟨_, by simp only [generateLookupRec, hc, checkDeclsList_id_of ctcs IHe hnv.1]; rfl⟩

/-- C8 (amended): `check(); clean(); check()` completes and rebuilds the
same derived state as the first `check` whenever no cross-tree constraint
contains a `Var` reference.  (With a `Var` reference the second `check`
raises, because the first `check` replaced the `Var`'s string content with
the resolved entity, which cannot be split as a path string — see the
counterexample.) -/
theorem C8_checkCleanCheck_rebuilds (fm : FM) (hd : fm.derived = none)
    (hv : fdNoVarCtcs fm.tree = true) :
    (∃ r, fm.check = .ok r) ∧ checkCleanCheck fm = fm.check := by
  obtain ⟨st2, hgen⟩ :=
    generateLookupRec_noVar (sizeOf fm.tree) fm.tree le_rfl hv [] 0 ⟨[], [], DeclErrors.init⟩
  have hcheck : fm.check = .ok ({ tree := fm.tree, derived := some st2 }, st2.errors) := by
    simp only [FM.check, hd, hgen]
  constructor
  · exact ⟨_, hcheck⟩
  · simp only [checkCleanCheck, hcheck, FM.clean, FM.check, hgen, hd]

/-- Counterexample to C8 as stated: on an FM whose cross-tree constraint is
`Var("a")`, the first `check()` succeeds (resolving the `Var` to the node
identity), but `check(); clean(); check()` raises — the second `check`
calls `.split('/')` on the resolved entity stored in the `Var`. -/
theorem C8_counterexample :
    isOkE c8fm.check = true ∧ checkCleanCheck c8fm = .error () :=
  ⟨rfl, rfl⟩

/-- Witness for C8 (amended) on a `Var`-free FM. -/
theorem C8_checkCleanCheck_rebuilds_witness :
    (c8wFM.derived = none ∧ fdNoVarCtcs c8wFM.tree = true) ∧
    ((∃ r, c8wFM.check = .ok r) ∧ checkCleanCheck c8wFM = c8wFM.check) :=
  ⟨⟨rfl, rfl⟩, C8_checkCleanCheck_rebuilds c8wFM rfl rfl⟩

/-- `processSeq` distributes over append. -/
theorem processSeq_append (s1 s2 : List (EntityId × String × Path))
    (st : Lookup × DeclErrors) :
    processSeq (s1 ++ s2) st = processSeq s2 (processSeq s1 st) :=
  List.foldl_append _ _ _ _

/-- `lookupInsertEntity` is `processDup` on the lookup/errors components. -/
theorem lookupInsertEntity_processDup (el : EntityId) (n : String) (path : Path)
    (d : String) (st : LookupState) :
    (lookupInsertEntity el n path d st).lookup
        = (processDup (st.lookup, st.errors) (el, n, path)).1 ∧
      (lookupInsertEntity el n path d st).errors
        = (processDup (st.lookup, st.errors) (el, n, path)).2 :=
  ⟨rfl, rfl⟩

/-- Stage 1 on the lookup/errors pair is the linear replay of the node's
own entry. -/
theorem glStage1_pair (name : Option String) (lp : Path) (st : LookupState) :
    ((glStage1 name lp st).lookup, (glStage1 name lp st).errors)
      = processSeq (match name with
          | some n => [(.node lp, n, lp)]
          | none => []) (st.lookup, st.errors) := by
  cases name <;> rfl

/-- Stage 3 on the lookup/errors pair is the linear replay of the attribute
entries. -/
theorem glStage3_pair {K : Type} (attrs : List (AttrDef K)) (lp : Path)
    (st : LookupState) :
    ((glStage3 attrs lp st).lookup, (glStage3 attrs lp st).errors)
      = processSeq (attrs.map fun a => (.attr lp a.name, a.name, lp))
          (st.lookup, st.errors) := by
  induction attrs generalizing st with
  | nil => rfl
  | cons a as ih =>
    simp only [glStage3, List.foldl_cons, List.map_cons]
    have h := ih (lookupInsertEntity (.attr lp a.name) a.name lp
      (pathToStr (lp ++ [a.name])) st)
    simp only [glStage3] at h
    rw [h]
    rfl

/-- The children loop flattens to the linear replay (list form,
parameterized by the member property). -/
theorem generateLookupRecList_flatten_of (cs : List (FDT CKey))
    (IH : ∀ c ∈ cs, fdNoCtcs c = true → ∀ (path : Path) (idx : Nat) (st : LookupState),
      ∃ d, generateLookupRec c path idx st
        = .ok (c, ⟨(processSeq (visitSeq c path idx) (st.lookup, st.errors)).1, d,
            (processSeq (visitSeq c path idx) (st.lookup, st.errors)).2⟩))
    (h : fdNoCtcsList cs = true) : ∀ (path : Path) (i : Nat) (st : LookupState),
    ∃ d, generateLookupRecList cs path i st
      = .ok (cs, ⟨(processSeq (visitSeqList cs path i) (st.lookup, st.errors)).1, d,
          (processSeq (visitSeqList cs path i) (st.lookup, st.errors)).2⟩) := by
  induction cs with
  | nil => exact fun path i st => ⟨st.dom, rfl⟩
  | cons c cs ihl =>
    intro path i st
    simp only [fdNoCtcsList, Bool.and_eq_true] at h
    obtain ⟨d1, h1⟩ := IH c (by simp) h.1 path i st
    obtain ⟨d2, h2⟩ := ihl (fun x hx => IH x (by simp [hx])) h.2 path (i + 1)
      ⟨(processSeq (visitSeq c path i) (st.lookup, st.errors)).1, d1,
        (processSeq (visitSeq c path i) (st.lookup, st.errors)).2⟩
    refine ⟨d2, ?_⟩
    simp only [generateLookupRecList, h1, h2, visitSeqList, processSeq_append]

/-- On a tree with no cross-tree constraints, the lookup pass leaves the
tree unchanged and its lookup/errors state is exactly the linear replay of
the visit sequence. -/
theorem generateLookupRec_flatten : ∀ (N : Nat) (t : FDT CKey), sizeOf t ≤ N →
    fdNoCtcs t = true → ∀ (path : Path) (idx : Nat) (st : LookupState),
    ∃ d, generateLookupRec t path idx st
      = .ok (t, ⟨(processSeq (visitSeq t path idx) (st.lookup, st.errors)).1, d,
          (processSeq (visitSeq t path idx) (st.lookup, st.errors)).2⟩) := by
  intro N
  induction N with
  | zero =>
    intro t ht
    exact absurd ht (by cases t; simp)
  | succ N ih =>
    intro t ht hnc path idx st
    cases t with
    | mk name kind key children ctcs attrs =>
      simp only [fdNoCtcs, Bool.and_eq_true] at hnc
      have hsc : sizeOf children ≤ N := by simp at ht; omega
      have IHmem : ∀ c ∈ children, fdNoCtcs c = true →
          ∀ (path : Path) (idx : Nat) (st : LookupState),
          ∃ d, generateLookupRec c path idx st
            = .ok (c, ⟨(processSeq (visitSeq c path idx) (st.lookup, st.errors)).1, d,
                (processSeq (visitSeq c path idx) (st.lookup, st.errors)).2⟩) :=
        fun c hm hv =>
          ih c (Nat.le_of_lt (Nat.lt_of_lt_of_le (List.sizeOf_lt_of_mem hm) hsc)) hv
      cases ctcs with
      | cons e es => simp [List.isEmpty] at hnc
      | nil =>
        obtain ⟨dc, hc⟩ := generateLookupRecList_flatten_of children IHmem hnc.2
          (path ++ [segOf name idx]) 0 (glStage1 name (path ++ [segOf name idx]) st)
        have key : ((glStage3 attrs (path ++ [segOf name idx])
              (⟨(processSeq (visitSeqList children (path ++ [segOf name idx]) 0)
                  ((glStage1 name (path ++ [segOf name idx]) st).lookup,
                   (glStage1 name (path ++ [segOf name idx]) st).errors)).1, dc,
                (processSeq (visitSeqList children (path ++ [segOf name idx]) 0)
                  ((glStage1 name (path ++ [segOf name idx]) st).lookup,
                   (glStage1 name (path ++ [segOf name idx]) st).errors)).2⟩)).lookup,
            (glStage3 attrs (path ++ [segOf name idx])
              (⟨(processSeq (visitSeqList children (path ++ [segOf name idx]) 0)
                  ((glStage1 name (path ++ [segOf name idx]) st).lookup,
                   (glStage1 name (path ++ [segOf name idx]) st).errors)).1, dc,
                (processSeq (visitSeqList children (path ++ [segOf name idx]) 0)
                  ((glStage1 name (path ++ [segOf name idx]) st).lookup,
                   (glStage1 name (path ++ [segOf name idx]) st).errors)).2⟩)).errors)
            = processSeq
                (visitSeq (FDT.mk name kind key children ([] : List (Exp CKey)) attrs)
                  path idx)
                (st.lookup, st.errors) := by
          rw [glStage3_pair]
          simp only [visitSeq, processSeq_append]
          rw [← glStage1_pair]
        exact ⟨_, by
          simp only [generateLookupRec, hc, checkDeclsList]
          rw [Except.ok.injEq, Prod.mk.injEq]
          exact ⟨rfl, by rw [LookupState.mk.injEq]
                         exact ⟨congrArg Prod.fst key, rfl, congrArg Prod.snd key⟩⟩⟩

/-- `lookupAppend` extends exactly the list stored under the name. -/
theorem lookupGet_lookupAppend (lk : Lookup) (name : String) (entry : EntityId × Path)
    (m : String) :
    lookupGet (lookupAppend lk name entry) m
      = match lookupGet lk m with
        | none => none
        | some v => if m == name then some (v ++ [entry]) else some v := by
  induction lk with
  | nil => rfl
  | cons kv lk ih =>
    by_cases h2 : kv.1 == m
    · by_cases h1 : kv.1 == name
      · have hmn : m == name := by
          simp only [beq_iff_eq] at h1 h2 ⊢
          rw [← h2, h1]
        simp [lookupAppend, lookupGet, List.find?, h1, h2, hmn]
      · have hmn : (m == name) = false := by
          simp only [beq_iff_eq] at h1 h2
          rw [Bool.eq_false_iff]
          intro hc
          simp only [beq_iff_eq] at hc
          exact h1 (by rw [h2, hc])
        simp [lookupAppend, lookupGet, List.find?, h1, h2, hmn]
    · by_cases h1 : kv.1 == name
      · simpa [lookupAppend, lookupGet, List.find?, h1, h2] using ih
      · simpa [lookupAppend, lookupGet, List.find?, h1, h2] using ih

/-- Appending a fresh key to the lookup. -/
theorem lookupGet_append_new (lk : Lookup) (name : String) (x : List (EntityId × Path))
    (m : String) (h : lookupGet lk m = none) :
    lookupGet (lk ++ [(name, x)]) m = if name == m then some x else none := by
  induction lk with
  | nil => by_cases hnm : name == m <;> simp [lookupGet, List.find?, hnm]
  | cons kv lk ih =>
    by_cases h2 : kv.1 == m
    · simp [lookupGet, List.find?, h2] at h
    · simp only [lookupGet, List.find?, h2, List.cons_append] at h ⊢
      exact ih h

/-- `entriesFor` over an extended prefix. -/
theorem entriesFor_append (seen : List (EntityId × String × Path))
    (e : EntityId × String × Path) (name : String) :
    entriesFor (seen ++ [e]) name
      = entriesFor seen name ++ (if e.2.1 == name then [(e.1, e.2.2)] else []) := by
  simp only [entriesFor, List.filter_append, List.map_append]
  by_cases h : e.2.1 == name
  · simp [h]
  · simp [h]

/-- Flip a Boolean string inequality. -/
theorem beq_symm_false {a b : String} (h : ¬(a == b) = true) : (b == a) = false := by
  rw [Bool.eq_false_iff]
  intro hc
  simp only [beq_iff_eq] at hc
  exact h (by simp [beq_iff_eq, hc.symm])

/-- One duplicate-check step preserves the representation invariant. -/
theorem represents_step (lk : Lookup) (er : DeclErrors)
    (seen : List (EntityId × String × Path)) (e : EntityId × String × Path)
    (hrep : represents lk seen) :
    represents (processDup (lk, er) e).1 (seen ++ [e]) := by
  intro m
  have he := hrep e.2.1
  have hm := hrep m
  simp only [processDup, checkDuplicate]
  cases hg : lookupGet lk e.2.1 with
  | some tmp =>
    simp only [hg]
    rw [lookupGet_lookupAppend, hm, entriesFor_append]
    cases hf : entriesFor seen m with
    | nil =>
      simp only
      by_cases hme : m == e.2.1
      · simp only [beq_iff_eq] at hme
        subst hme
        rw [hg, hf] at he
        cases he
      · have hne : (e.2.1 == m) = false := beq_symm_false hme
        simp [hne]
    | cons x xs =>
      simp only
      by_cases hme : m == e.2.1
      · have hem : (e.2.1 == m) = true := by
          simp only [beq_iff_eq] at hme ⊢
          exact hme.symm
        simp only [hme, if_true, hem]
        cases hx : entriesFor seen m ++ [(e.1, e.2.2)] with
        | nil => simp [hf] at hx
        | cons y ys => simp [← hx, hf]
      · have hne : (e.2.1 == m) = false := beq_symm_false hme
        simp only [hme, if_false, hne]
        cases hx : entriesFor seen m ++ ([] : List (EntityId × Path)) with
        | nil => simp [hf] at hx
        | cons y ys => simp [← hx, hf]
  | none =>
    simp only [hg]
    rw [entriesFor_append]
    by_cases hme : e.2.1 == m
    · simp only [beq_iff_eq] at hme
      subst hme
      rw [hg] at he
      have hf : entriesFor seen e.2.1 = [] := by
        cases hx : entriesFor seen e.2.1 with
        | nil => rfl
        | cons y ys => rw [hx] at he; cases he
      rw [lookupGet_append_new lk e.2.1 [(e.1, e.2.2)] e.2.1 hg]
      simp [hf]
    · have hne : (e.2.1 == m) = false := by
        rw [Bool.eq_false_iff]
        exact hme
      rw [hne]
      simp only [Bool.false_eq_true, if_false, List.append_nil]
      cases hx : entriesFor seen m with
      | nil =>
        rw [hx] at hm
        rw [lookupGet_append_new lk e.2.1 [(e.1, e.2.2)] m hm]
        have : (e.2.1 == m) = false := hne
        simp [this]
      | cons y ys =>
        rw [hx] at hm
        simp only [lookupGet, List.find?_append] at hm ⊢
        cases hfa : lk.find? (fun kv => kv.1 == m) with
        | none =>
          rw [hfa] at hm
          simp at hm
        | some kv =>
          rw [hfa] at hm
          simpa using hm

/-- Membership in the ambiguity names after `add_ambiguous`. -/
theorem mem_ambiguousNamesOf_addAmbiguous (er : DeclErrors) (n : String)
    (p : Option Path) (ps : List Path) (m : String) :
    m ∈ ambiguousNamesOf (er.addAmbiguous n p ps) ↔ m ∈ ambiguousNamesOf er ∨ m = n := by
  simp only [ambiguousNamesOf, DeclErrors.addAmbiguous, List.filterMap_append,
    List.mem_append, List.filterMap_cons, List.filterMap_nil, List.mem_singleton]
  tauto

/-- Membership in `entriesFor`. -/
theorem mem_entriesFor (seen : List (EntityId × String × Path)) (name : String)
    (x : EntityId × Path) :
    x ∈ entriesFor seen name ↔ ∃ ei ∈ seen, ei.2.1 = name ∧ x = (ei.1, ei.2.2) := by
  simp only [entriesFor, List.mem_map, List.mem_filter, beq_iff_eq]
  constructor
  · rintro ⟨ei, ⟨hmem, hname⟩, hx⟩
    exact ⟨ei, hmem, hname, hx.symm⟩
  · rintro ⟨ei, hmem, hname, hx⟩
    exact ⟨ei, ⟨hmem, hname⟩, hx.symm⟩

/-- The ambiguity recorded by one duplicate-check step: exactly when some
already-seen entity bears the same name and its path is included (as an
ordered subsequence) in the new entity's path. -/
theorem processDup_amb (lk : Lookup) (er : DeclErrors)
    (seen : List (EntityId × String × Path)) (e : EntityId × String × Path)
    (hrep : represents lk seen) (n : String) :
    n ∈ ambiguousNamesOf (processDup (lk, er) e).2 ↔
      n ∈ ambiguousNamesOf er ∨
        (n = e.2.1 ∧ ∃ ei ∈ seen, ei.2.1 = e.2.1 ∧ pathIncludes e.2.2 ei.2.2 = true) := by
  have he := hrep e.2.1
  simp only [processDup, checkDuplicate]
  cases hg : lookupGet lk e.2.1 with
  | none =>
    have hf : entriesFor seen e.2.1 = [] := by
      rw [hg] at he
      cases hx : entriesFor seen e.2.1 with
      | nil => rfl
      | cons y ys => rw [hx] at he; cases he
    simp only
    constructor
    · exact .inl
    · rintro (h | ⟨hn, ei, hmem, hname, hinc⟩)
      · exact h
      · exfalso
        have : (ei.1, ei.2.2) ∈ entriesFor seen e.2.1 :=
          (mem_entriesFor seen e.2.1 _).mpr ⟨ei, hmem, hname, rfl⟩
        rw [hf] at this
        cases this
  | some tmp =>
    have htmp : tmp = entriesFor seen e.2.1 := by
      rw [hg] at he
      cases hx : entriesFor seen e.2.1 with
      | nil => rw [hx] at he; cases he
      | cons y ys =>
        rw [hx] at he
        simp only [Option.some.injEq] at he
        rw [he]
    simp only
    by_cases ho : ((tmp.filter (fun op => pathIncludes e.2.2 op.2)).map (·.2)).isEmpty
    · simp only [ho, if_true]
      constructor
      · exact .inl
      · rintro (h | ⟨hn, ei, hmem, hname, hinc⟩)
        · exact h
        · exfalso
          have hx : (ei.1, ei.2.2) ∈ tmp := by
            rw [htmp]
            exact (mem_entriesFor seen e.2.1 _).mpr ⟨ei, hmem, hname, rfl⟩
          have : ei.2.2 ∈ (tmp.filter (fun op => pathIncludes e.2.2 op.2)).map (·.2) :=
            List.mem_map_of_mem _ (List.mem_filter.mpr ⟨hx, hinc⟩)
          rw [List.isEmpty_iff] at ho
          rw [ho] at this
          cases this
    · have ho2 : ((tmp.filter (fun op => pathIncludes e.2.2 op.2)).map (·.2)).isEmpty
          = false := by
        rw [Bool.eq_false_iff]
        exact ho
      simp only [ho2, Bool.false_eq_true, if_false, mem_ambiguousNamesOf_addAmbiguous]
      have hex : ∃ ei ∈ seen, ei.2.1 = e.2.1 ∧ pathIncludes e.2.2 ei.2.2 = true := by
        have : ∃ x, x ∈ (tmp.filter (fun op => pathIncludes e.2.2 op.2)).map (·.2) := by
          cases hl : (tmp.filter (fun op => pathIncludes e.2.2 op.2)).map (·.2) with
          | nil => rw [hl] at ho; simp at ho
          | cons z zs => exact ⟨z, by simp⟩
        obtain ⟨x, hx⟩ := this
        obtain ⟨op, hop, hopx⟩ := List.mem_map.mp hx
        obtain ⟨hoptmp, hinc⟩ := List.mem_filter.mp hop
        rw [htmp] at hoptmp
        obtain ⟨ei, hmem, hname, hopei⟩ := (mem_entriesFor seen e.2.1 _).mp hoptmp
        refine ⟨ei, hmem, hname, ?_⟩
        rw [hopei] at hinc
        exact hinc
      constructor
      · rintro (h | h)
        · exact .inl h
        · exact .inr ⟨h, hex⟩
      · rintro (h | ⟨hn, -⟩)
        · exact .inl h
        · exact .inr hn

/-- Linear replay characterization: an ambiguity is recorded for `n` exactly
when some entry bearing `n` is processed after an entry bearing `n`
(already seen, or earlier in the sequence) whose path it includes. -/
theorem processSeq_amb : ∀ (rest : List (EntityId × String × Path)) (lk : Lookup)
    (er : DeclErrors) (seen : List (EntityId × String × Path)),
    represents lk seen → ∀ n,
    n ∈ ambiguousNamesOf (processSeq rest (lk, er)).2 ↔
      n ∈ ambiguousNamesOf er ∨
      ∃ s1 ej s2, rest = s1 ++ ej :: s2 ∧ ej.2.1 = n ∧
        ∃ ei ∈ seen ++ s1, ei.2.1 = n ∧ pathIncludes ej.2.2 ei.2.2 = true := by
  intro rest
  induction rest with
  | nil =>
    intro lk er seen hrep n
    simp only [processSeq, List.foldl_nil]
    constructor
    · exact .inl
    · rintro (h | ⟨s1, ej, s2, heq, -⟩)
      · exact h
      · cases s1 <;> simp at heq
  | cons e rest ih =>
    intro lk er seen hrep n
    have hstep : processSeq (e :: rest) (lk, er) = processSeq rest (processDup (lk, er) e) :=
      List.foldl_cons _ _
    rw [hstep]
    have hrep2 : represents (processDup (lk, er) e).1 (seen ++ [e]) :=
      represents_step lk er seen e hrep
    have hih := ih (processDup (lk, er) e).1 (processDup (lk, er) e).2 (seen ++ [e]) hrep2 n
    rw [show ((processDup (lk, er) e).1, (processDup (lk, er) e).2) = processDup (lk, er) e
      from rfl] at hih
    rw [hih]
    rw [processDup_amb lk er seen e hrep n]
    constructor
    · rintro ((h | ⟨hn, ei, hmem, hname, hinc⟩) | ⟨s1, ej, s2, heq, hej, ei, hmem, hei, hinc⟩)
      · exact .inl h
      · exact .inr ⟨[], e, rest, rfl, hn.symm, ei, by simpa using hmem, by rw [hname, hn], hinc⟩
      · refine .inr ⟨e :: s1, ej, s2, by simp [heq], hej, ei, ?_, hei, hinc⟩
        rw [List.append_assoc] at hmem
        simpa using hmem
    · rintro (h | ⟨s1, ej, s2, heq, hej, ei, hmem, hei, hinc⟩)
      · exact .inl (.inl h)
      · cases s1 with
        | nil =>
          simp only [List.nil_append, List.cons.injEq] at heq
          obtain ⟨hee, -⟩ := heq
          subst hee
          rw [List.append_nil] at hmem
          exact .inl (.inr ⟨hej.symm, ei, hmem, by rw [hei, hej], hinc⟩)
        | cons x s1 =>
          simp only [List.cons_append, List.cons.injEq] at heq
          obtain ⟨hxe, hre⟩ := heq
          subst hxe
          refine .inr ⟨s1, ej, s2, hre, hej, ei, ?_, hei, hinc⟩
          rw [List.append_assoc]
          simpa using hmem

/-- C5 (amended): on a checked FM (without cross-tree constraints, whose
resolution may add reference errors of its own), an ambiguity is recorded
for a name exactly when two named entities bearing that name are visited in
order such that the earlier one's canonical lookup path occurs as an
ordered (not necessarily contiguous) subsequence of the later one's — the
`_path_includes__` relation.  A same-ancestor-chain pair is always such
(prefixes are subsequences), but certain parallel-branch pairs are reported
too, so "parallel branches never conflict" does not hold. -/
theorem C5_ambiguity_characterization (t : FDT CKey) (hnc : fdNoCtcs t = true) :
    ∃ d, generateLookupRec t [] 0 ⟨[], [], DeclErrors.init⟩
      = .ok (t, ⟨(processSeq (visitSeq t [] 0) ([], DeclErrors.init)).1, d,
          (processSeq (visitSeq t [] 0) ([], DeclErrors.init)).2⟩) ∧
    ∀ n, n ∈ ambiguousNamesOf (processSeq (visitSeq t [] 0) ([], DeclErrors.init)).2 ↔
      ∃ s1 ej s2, visitSeq t [] 0 = s1 ++ ej :: s2 ∧ ej.2.1 = n ∧
        ∃ ei ∈ s1, ei.2.1 = n ∧ pathIncludes ej.2.2 ei.2.2 = true := by
  obtain ⟨d, hd⟩ := generateLookupRec_flatten (sizeOf t) t le_rfl hnc [] 0
    ⟨[], [], DeclErrors.init⟩
  refine ⟨d, hd, ?_⟩
  intro n
  have hrep : represents [] [] := fun name => rfl
  have h := processSeq_amb (visitSeq t [] 0) [] DeclErrors.init [] hrep n
  rw [h]
  constructor
  · rintro (habs | ⟨s1, ej, s2, heq, hej, ei, hmem, hei, hinc⟩)
    · cases habs
    · exact ⟨s1, ej, s2, heq, hej, ei, by simpa using hmem, hei, hinc⟩
  · rintro ⟨s1, ej, s2, heq, hej, ei, hmem, hei, hinc⟩
    exact .inr ⟨s1, ej, s2, heq, hej, ei, by simpa using hmem, hei, hinc⟩

/-- Counterexample to C5 as stated: checking `c5tree` records an ambiguity
for `a` whose two canonical paths are `r/a` and `r/b/a` — two parallel
branches, neither path a prefix of (on the root-to-node chain of) the
other.  The claim says parallel branches produce no ambiguity
diagnostic. -/
theorem C5_counterexample :
    ((FM.check ⟨c5tree, none⟩).map (fun r => r.2))
      = .ok ⟨[.ambiguous "a" (some ["r", "b", "a"]) [["r", "a"]]], []⟩ ∧
    List.isPrefixOf ["r", "a"] ["r", "b", "a"] = false ∧
    List.isPrefixOf ["r", "b", "a"] ["r", "a"] = false :=
  ⟨rfl, rfl, rfl⟩

/-- Witness for C5 (amended) at the concrete tree `c5tree`. -/
theorem C5_ambiguity_characterization_witness :
    fdNoCtcs c5tree = true ∧
    (∃ d, generateLookupRec c5tree [] 0 ⟨[], [], DeclErrors.init⟩
      = .ok (c5tree, ⟨(processSeq (visitSeq c5tree [] 0) ([], DeclErrors.init)).1, d,
          (processSeq (visitSeq c5tree [] 0) ([], DeclErrors.init)).2⟩) ∧
    ∀ n, n ∈ ambiguousNamesOf (processSeq (visitSeq c5tree [] 0) ([], DeclErrors.init)).2 ↔
      ∃ s1 ej s2, visitSeq c5tree [] 0 = s1 ++ ej :: s2 ∧ ej.2.1 = n ∧
        ∃ ei ∈ s1, ei.2.1 = n ∧ pathIncludes ej.2.2 ei.2.2 = true) :=
  ⟨rfl, C5_ambiguity_characterization c5tree rfl⟩

/-- `finishFD` keeps the nvalue. -/
theorem finishFD_nvalue {K : Type} (lr : Option (RTree K)) (vs : Bool) (nv : NVal)
    (sn : List K) (e : OBool) (sl : List (RTree K)) :
    (finishFD lr vs nv sn e sl).nvalue = nv := by
  simp only [finishFD]
  split <;> rfl

/-- `finishFD` computes the verdict from the child verdicts and the local
reason. -/
theorem finishFD_value {K : Type} (lr : Option (RTree K)) (vs : Bool) (nv : NVal)
    (sn : List K) (e : OBool) (sl : List (RTree K)) :
    (finishFD lr vs nv sn e sl).value = (vs && lr.isNone) := by
  simp only [finishFD]
  split <;> rfl

/-- An explicit reason tree is falsy exactly when both parts are empty. -/
theorem truthyOR_mk_false_iff {K : Type} (l : List (LReason K)) (s : List (RTree K)) :
    truthyOR (some (RTree.mk l s)) = false ↔ l = [] ∧ s = [] := by
  simp [truthyOR, truthyR, RTree.count, Nat.add_eq_zero, List.length_eq_zero]

/-- The key C2 equivalence on `finishFD`'s output: the reason is falsy
exactly when the verdict is true and the nvalue meets the expectation —
provided every local reason is non-empty and a false child verdict
guarantees a non-empty attached sub-reason. -/
theorem finishFD_iff {K : Type} (lr : Option (RTree K)) (vs : Bool) (nv : NVal)
    (sn : List K) (e : OBool) (sl : List (RTree K))
    (hl : ∀ t, lr = some t → t.localsOf ≠ [])
    (hs : vs = false → sl ≠ []) :
    (truthyOR (finishFD lr vs nv sn e sl).reason = false ↔
      ((finishFD lr vs nv sn e sl).value = true ∧ pyNeNV nv e = false)) := by
  have hval := finishFD_value lr vs nv sn e sl
  by_cases hc : (pyNeNV nv e || !(vs && lr.isNone)) = true
  · have hres : (finishFD lr vs nv sn e sl).reason
        = some (RTree.mk
            (if pyNeNV nv e = true then (lr.getD ⟨[], []⟩).localsOf ++ [.mismatch nv e]
              else (lr.getD ⟨[], []⟩).localsOf)
            ((lr.getD ⟨[], []⟩).subsOf ++ sl)) := by
      simp only [finishFD]
      rw [if_pos hc]
    rw [hres, hval]
    constructor
    · intro habs
      exfalso
      rw [truthyOR_mk_false_iff] at habs
      obtain ⟨hloc, hsub⟩ := habs
      by_cases hne : pyNeNV nv e = true
      · rw [if_pos hne] at hloc
        simp at hloc
      · rw [Bool.not_eq_true] at hne
        rw [hne] at hc
        simp only [Bool.false_or] at hc
        have hvi : (vs && lr.isNone) = false := by
          cases hvv : (vs && lr.isNone)
          · rfl
          · rw [hvv] at hc; simp at hc
        rw [if_neg (by simp [hne])] at hloc
        cases hlr : lr with
        | some t0 =>
          rw [hlr] at hloc
          exact hl t0 hlr (by simpa using hloc)
        | none =>
          rw [hlr] at hvi
          simp only [Option.isNone_none, Bool.and_true] at hvi
          have hsl := hs hvi
          rw [hlr] at hsub
          simp only [Option.getD_none, RTree.subsOf, List.nil_append] at hsub
          exact hsl hsub
    · rintro ⟨hv2, hne⟩
      exfalso
      rw [hne] at hc
      simp only [Bool.false_or] at hc
      rw [hv2] at hc
      simp at hc
  · have hres : (finishFD lr vs nv sn e sl).reason = lr := by
      simp only [finishFD]
      rw [if_neg hc]
    simp only [Bool.or_eq_true, not_or, Bool.not_eq_true] at hc
    obtain ⟨hne, hnv⟩ := hc
    have hvt : (vs && lr.isNone) = true := by
      cases hvv : (vs && lr.isNone)
      · rw [hvv] at hnv; simp at hnv
      · rfl
    have hlrnone : lr = none := by
      cases hlr : lr with
      | none => rfl
      | some t => rw [hlr] at hvt; simp at hvt
    subst hlrnone
    have hvs : vs = true := by simpa using hvt
    rw [hres, hval]
    simp [truthyOR, hvs, hne]

/-- Every local reason built by the named-consistency check is non-empty. -/
theorem namedCheck_locals {K : Type} (name : Option String) (key : K)
    (pk : Option PyVal) (nvalueSub : Bool) (snodes : List K) :
    ∀ t, (namedCheck name key pk nvalueSub snodes).1 = some t → t.localsOf ≠ [] := by
  intro t ht
  cases name with
  | none => simp [namedCheck] at ht
  | some n =>
    cases pk with
    | none =>
      simp only [namedCheck, Option.some.injEq] at ht
      subst ht
      simp [RTree.localsOf]
    | some v =>
      simp only [namedCheck] at ht
      by_cases h1 : (!truthy v && !snodes.isEmpty) = true
      · rw [if_pos h1] at ht
        simp only [Option.some.injEq] at ht
        subst ht
        simp [RTree.localsOf]
      · rw [if_neg h1] at ht
        by_cases h2 : (truthy v && !nvalueSub) = true
        · rw [if_pos h2] at ht
          simp only [Option.some.injEq] at ht
          subst ht
          simp [RTree.localsOf]
        · rw [if_neg h2] at ht
          by_cases h3 : truthy v = true
          · rw [if_pos h3] at ht
            simp at ht
          · rw [if_neg h3] at ht
            simp at ht

/-- Members of an evaluated child tuple come from evaluating the children. -/
theorem evalFDList_mem {K : Type} (p : K → Option PyVal) :
    ∀ (cs : List (FDT K)) (e : OBool) (rs : List (FDRes K)),
    evalFDList p cs e = .ok rs → ∀ r ∈ rs, ∃ c ∈ cs, evalFD p c e = .ok r := by
  intro cs
  induction cs with
  | nil =>
    intro e rs h r hr
    simp only [evalFDList, Except.ok.injEq] at h
    subst h
    cases hr
  | cons c cs ih =>
    intro e rs h r hr
    simp only [evalFDList] at h
    cases hc : evalFD p c e with
    | error er =>
      cases hcs : evalFDList p cs e with
      | error er2 =>
        rw [hc, hcs] at h
        cases h
      | ok rs1 =>
        rw [hc, hcs] at h
        cases h
    | ok r1 =>
      cases hcs : evalFDList p cs e with
      | error er =>
        rw [hc, hcs] at h
        cases h
      | ok rs1 =>
        rw [hc, hcs] at h
        simp only [Except.ok.injEq] at h
        subst h
        rcases List.mem_cons.mp hr with h1 | h2
        · exact ⟨c, by simp, by rw [h1]; exact hc⟩
        · obtain ⟨c2, hc2, he2⟩ := ih e rs1 hcs r h2
          exact ⟨c2, by simp [hc2], he2⟩

/-- C2 core: for every feature tree and product, the evaluation reason is
falsy exactly when the verdict is true AND the node's nvalue meets the
expectation. -/
theorem evalFD_reason_iff : ∀ (N : Nat) {K : Type} (fd : FDT K), sizeOf fd ≤ N →
    ∀ (p : K → Option PyVal) (expected : OBool) (r : FDRes K),
    evalFD p fd expected = .ok r →
    (truthyOR r.reason = false ↔ (r.value = true ∧ pyNeNV r.nvalue expected = false)) := by
  intro N
  induction N with
  | zero =>
    intro K fd hfd
    exact absurd hfd (by cases fd; simp)
  | succ N ih =>
    intro K fd hfd p expected r h
    cases fd with
    | mk name kind key children ctcs attrs =>
      simp only [evalFD] at h
      cases hcs : evalFDList p children (getExpectedFD kind expected) with
      | error e =>
        rw [hcs] at h
        cases h
      | ok rcs =>
        rw [hcs] at h
        cases hcts : evalListE p ctcs (getExpectedFD kind expected) with
        | error e =>
          rw [hcts] at h
          cases h
        | ok rcts =>
          rw [hcts] at h
          simp only [Except.ok.injEq] at h
          subst h
          rw [finishFD_nvalue]
          apply finishFD_iff
          · exact namedCheck_locals name key (p key) _ _
          · intro hvs
            rw [List.all_eq_false] at hvs
            obtain ⟨rc, hrcmem, hrcval⟩ := hvs
            simp only [Bool.not_eq_true] at hrcval
            obtain ⟨c, hcmem, hceval⟩ :=
              evalFDList_mem p children (getExpectedFD kind expected) rcs hcs rc hrcmem
            have hsz : sizeOf c ≤ N := by
              have h1 := List.sizeOf_lt_of_mem hcmem
              have h2 : sizeOf children ≤ N := by simp at hfd; omega
              omega
            have hiff := ih c hsz p (getExpectedFD kind expected) rc hceval
            have htrue : truthyOR rc.reason = true := by
              cases htr : truthyOR rc.reason
              · have hv := (hiff.mp htr).1
                rw [hv] at hrcval
                cases hrcval
              · rfl
            cases hrr : rc.reason with
            | none =>
              rw [hrr] at htrue
              simp [truthyOR] at htrue
            | some t =>
              rw [hrr] at htrue
              have hmem2 : t ∈ subsFromFD rcs := by
                rw [subsFromFD, List.mem_filterMap]
                refine ⟨rc, hrcmem, ?_⟩
                rw [hrr]
                simp only [truthyOR] at htrue
                simp [htrue]
              intro habs
              rw [List.append_eq_nil] at habs
              rw [habs.1] at hmem2
              cases hmem2

/-- C2 (amended): for every FM and every product, `fm(p).value` is true AND
`fm(p).nvalue` equals (Python `==`) the expectation `True` if and only if
the reason tree is empty/falsy.  (The claim's version — `value` alone
decides the reason — fails: a product with the root feature `False` gets
`value = True` with a non-empty reason; see the counterexample.) -/
theorem C2_value_nvalue_iff_reason {K : Type} (p : K → Option PyVal) (fd : FDT K)
    (r : FDRes K) (h : fmCall p fd = .ok r) :
    truthyOR r.reason = false ↔ (r.value = true ∧ pyNeNV r.nvalue (some true) = false) :=
  evalFD_reason_iff (sizeOf fd) fd le_rfl p (some true) r h

/-- Counterexample to C2 as stated: on the single-feature FM `A` and the
total product `{A: False}`, the evaluation verdict `value` is `True` while
the reason tree is non-empty (it records the nvalue mismatch `False` vs
expected `True`). -/
theorem C2_counterexample :
    fmCall (fun k : String => if k == "A" then some (.bool false) else none)
        (.mk (some "A") .fdAnd "A" [] [] [])
      = .ok ⟨true, some (.mk [.mismatch (.val (.bool false)) (some true)] []),
          .val (.bool false), []⟩ ∧
    truthyR (RTree.mk [LReason.mismatch (K := String) (.val (.bool false)) (some true)] [])
      = true :=
  ⟨rfl, rfl⟩

/-- Witness for C2 (amended) on the single-feature FM `A` with `{A: True}`. -/
theorem C2_value_nvalue_iff_reason_witness :
    fmCall (fun k : String => if k == "A" then some (.bool true) else none)
        (.mk (some "A") .fdAnd "A" [] [] [])
      = .ok ⟨true, none, .val (.bool true), ["A"]⟩ ∧
    (truthyOR (Option.none (α := RTree String)) = false ↔
      ((true : Bool) = true ∧ pyNeNV (.val (.bool true)) (some true) = false)) :=
  ⟨rfl, C2_value_nvalue_iff_reason (fun k : String => if k == "A" then some (.bool true) else none)
    (.mk (some "A") .fdAnd "A" [] [] []) ⟨true, none, .val (.bool true), ["A"]⟩ rfl⟩

theorem extractNoneGo_allFalse {K : Type} (d : WDict K) (h : wdAllFalse d) :
    ∀ (dom : List K) (v : Option PyVal), extractNoneGo d dom (-1) v = (-1, v) := by
  intro dom
  induction dom with
  | nil => intro v; rfl
  | cons s rest ih =>
    intro v
    have hlt : ¬ ((-1 : Int) < -1) := by omega
    rcases h s with hs | hs
    · simp only [extractNoneGo, hs]
      exact ih v
    · simp only [extractNoneGo, hs, if_neg hlt]
      exact ih v

theorem extractTrueGo_allFalse {K : Type} (d : WDict K) (h : wdAllFalse d) :
    ∀ dom : List K,
      extractTrueGo d dom (-1) = (-1, dom.map (fun s => (d s).map (·.1))) := by
  intro dom
  induction dom with
  | nil => rfl
  | cons s rest ih =>
    have hpe : pyEq (.bool false) (.bool true) = false := rfl
    have hlt : ¬ ((-1 : Int) < -1) := by omega
    rcases h s with hs | hs
    · simp [extractTrueGo, hs, ih]
    · simp [extractTrueGo, hs, hpe, hlt, ih]

theorem extractTrueGo_length {K : Type} (d : WDict K) :
    ∀ (dom : List K) (idx : Int), (extractTrueGo d dom idx).2.length = dom.length := by
  intro dom
  induction dom with
  | nil => intro idx; rfl
  | cons s rest ih =>
    intro idx
    rw [extractTrueGo]
    cases hs : d s with
    | none => simp [ih]
    | some vi => simp [ih]

theorem inferSv_length {K : Type} [DecidableEq K] (kind : FDKind) (key : K)
    (ck : List K) (d : WDict K) :
    (inferSv kind key ck d).2.2.length = ck.length := by
  cases kind with
  | fdAnd => simp [inferSv]
  | fdAny => rw [inferSv]; split <;> simp [extractTrue, extractTrueGo_length]
  | fdOr => rw [inferSv]; split <;> simp [extractTrue, extractTrueGo_length]
  | fdXor =>
    rw [inferSv]
    split <;> split <;> simp [extractTrue, extractTrueGo_length]

theorem inferSv_allFalse {K : Type} [DecidableEq K] (kind : FDKind) (key : K)
    (ck : List K) (d : WDict K) (h : wdAllFalse d) :
    inferSv kind key ck d =
      ((-1 : Int),
       (match kind with
        | .fdAnd => (d key).map (·.1)
        | _ => some (.bool false)),
       ck.map (fun s => (d s).map (·.1))) := by
  have hq : extractTrue d ck = (-1, ck.map (fun s => (d s).map (·.1))) := by
    rw [extractTrue, extractTrueGo_allFalse d h]
  have hvi : (d key).getD (.bool false, -1) = (.bool false, -1) := by
    rcases h key with hk | hk <;> simp [hk]
  have hlt : ¬ ((-1 : Int) < -1) := by omega
  cases kind with
  | fdAnd =>
    have hn : extractNone d (key :: ck) = (-1, none) := by
      rw [extractNone, extractNoneGo_allFalse d h]
    have hgd : (fun el => (match d el with
        | none => ((-1 : Int), (none : Option PyVal)).2
        | some (v, i) => if i < ((-1 : Int), (none : Option PyVal)).1
            then ((-1 : Int), (none : Option PyVal)).2 else some v))
        = (fun s : K => (d s).map (·.1)) := by
      funext s
      rcases h s with hs | hs
      · rw [hs]
        rfl
      · rw [hs]
        simp only [if_neg hlt]
        rfl
    have hk := congrFun hgd key
    simp only [inferSv, hn, hgd, hk]
  | fdAny =>
    simp only [inferSv, hq, hvi, if_neg hlt]
  | fdOr =>
    simp only [inferSv, hq, hvi, if_neg hlt]
  | fdXor =>
    simp only [inferSv, hq, hvi, if_neg hlt]

theorem dset_allFalse {K : Type} [DecidableEq K] (d : WDict K) (k : K)
    (h : wdAllFalse d) : wdAllFalse (dset d k (.bool false, -1)) := by
  intro x
  rw [dset]
  by_cases hx : x = k
  · rw [if_pos hx]
    exact Or.inr rfl
  · rw [if_neg hx]
    exact h x

theorem updateFold_allFalse {K : Type} [DecidableEq K] :
    ∀ (l : List (K × Option PyVal)) (d : WDict K), wdAllFalse d →
    (∀ x ∈ l, x.2 = none ∨ x.2 = some (.bool false)) →
    wdAllFalse (l.foldl (fun d kv =>
      match kv.2 with
      | none => d
      | some v => dset d kv.1 (v, -1)) d) := by
  intro l
  induction l with
  | nil => intro d hd _; exact hd
  | cons x rest ih =>
    intro d hd hl
    rw [List.foldl_cons]
    rcases hl x (List.mem_cons_self x rest) with hx | hx
    · rw [hx]
      exact ih d hd (fun y hy => hl y (List.mem_cons_of_mem x hy))
    · rw [hx]
      exact ih _ (dset_allFalse d x.1 hd) (fun y hy => hl y (List.mem_cons_of_mem x hy))

theorem mkProductUpdate_allFalse {K : Type} [DecidableEq K] (key : K) (ck : List K)
    (d : WDict K) (vl : Option PyVal) (vs : List (Option PyVal)) (h : wdAllFalse d)
    (hvl : vl = none ∨ vl = some (.bool false))
    (hvs : ∀ x ∈ vs, x = none ∨ x = some (.bool false)) :
    wdAllFalse (mkProductUpdate key ck d (-1) vl vs) := by
  rw [mkProductUpdate.eq_def]
  have hd1 : wdAllFalse (match vl with
      | none => d
      | some v => dset d key (v, -1)) := by
    rcases hvl with hv | hv
    · rw [hv]
      exact h
    · rw [hv]
      exact dset_allFalse d key h
  refine updateFold_allFalse _ _ hd1 ?_
  intro x hx
  exact hvs x.2 (List.of_mem_zip hx).2

theorem mkProductRec1List_allFalse_of {K : Type} [DecidableEq K] (cs : List (FDT K))
    (hcs : ∀ c ∈ cs, ∀ d, wdAllFalse d → wdAllFalse (mkProductRec1 c d)) :
    ∀ d, wdAllFalse d → wdAllFalse (mkProductRec1List cs d) := by
  induction cs with
  | nil => intro d hd; exact hd
  | cons c rest ih =>
    intro d hd
    rw [mkProductRec1List]
    exact ih (fun c hc => hcs c (List.mem_cons_of_mem _ hc)) _
      (hcs c (List.mem_cons_self c rest) d hd)

theorem mkProductRec1_allFalse {K : Type} [DecidableEq K] :
    ∀ (N : Nat) (t : FDT K), sizeOf t ≤ N → ∀ d, wdAllFalse d →
    wdAllFalse (mkProductRec1 t d) := by
  intro N
  induction N with
  | zero =>
    intro t ht
    exact absurd ht (by cases t; simp)
  | succ N ih =>
    intro t ht d hd
    cases t with
    | mk name kind key children ctcs attrs =>
      rw [mkProductRec1]
      have hup : ∀ d2 : WDict K, wdAllFalse d2 →
          wdAllFalse (mkProductUpdate key (children.map FDT.keyOf) d2
            (inferSv kind key (children.map FDT.keyOf) d2).1
            (inferSv kind key (children.map FDT.keyOf) d2).2.1
            (inferSv kind key (children.map FDT.keyOf) d2).2.2) := by
        intro d2 hd2
        rw [inferSv_allFalse kind key (children.map FDT.keyOf) d2 hd2]
        refine mkProductUpdate_allFalse key _ d2 _ _ hd2 ?_ ?_
        · cases kind with
          | fdAnd =>
            rcases hd2 key with hk | hk <;> simp [hk]
          | fdAny => exact Or.inr rfl
          | fdOr => exact Or.inr rfl
          | fdXor => exact Or.inr rfl
        · intro x hx
          rw [List.mem_map] at hx
          obtain ⟨s, _, hxe⟩ := hx
          rw [← hxe]
          rcases hd2 s with hs | hs <;> simp [hs]
      have hlist : ∀ c ∈ children, ∀ d2, wdAllFalse d2 → wdAllFalse (mkProductRec1 c d2) := by
        intro c hc d2 hd2
        have hsz : sizeOf c ≤ N := by
          have h1 := List.sizeOf_lt_of_mem hc
          have h2 : sizeOf children ≤ N := by simp at ht; omega
          omega
        exact ih c hsz d2 hd2
      exact hup _ (mkProductRec1List_allFalse_of children hlist _ (hup d hd))

theorem mkProductRec2List_false_of {K : Type} [DecidableEq K] :
    ∀ (cs : List (FDT K)) (ovs : List (Option PyVal)),
    ovs.length = cs.length →
    (∀ x ∈ ovs, x = none ∨ x = some (.bool false)) →
    (∀ c ∈ cs, ∀ d res k, wdAllFalse d →
      mkProductRec2 c (.bool false) d res k =
        if k ∈ featKeys c then some (.bool false) else res k) →
    ∀ (d : WDict K) (res : RDict K) (k : K), wdAllFalse d →
    mkProductRec2List cs ovs d res k =
      if k ∈ featKeysList cs then some (.bool false) else res k := by
  intro cs
  induction cs with
  | nil =>
    intro ovs _ _ _ d res k _
    cases ovs with
    | nil => simp [mkProductRec2List, featKeysList]
    | cons o os => simp [mkProductRec2List, featKeysList]
  | cons c rest ih =>
    intro ovs hlen hovs hcs d res k hd
    cases ovs with
    | nil => cases hlen
    | cons ov ovs2 =>
      rw [mkProductRec2List]
      have hov : ov.getD (.bool false) = .bool false := by
        rcases hovs ov (List.mem_cons_self ov ovs2) with ho | ho <;> rw [ho] <;> rfl
      rw [hov]
      have hin := hcs c (List.mem_cons_self c rest) d res k hd
      have hstep := ih ovs2 (by simpa using hlen)
        (fun x hx => hovs x (List.mem_cons_of_mem ov hx))
        (fun c2 hc2 => hcs c2 (List.mem_cons_of_mem c hc2))
        d (mkProductRec2 c (.bool false) d res) k hd
      rw [hstep]
      by_cases h1 : k ∈ featKeysList rest
      · simp [featKeysList, h1]
      · rw [if_neg h1, hin]
        by_cases h2 : k ∈ featKeys c
        · simp [featKeysList, h1, h2]
        · simp [featKeysList, h1, h2]

theorem mkProductRec2_false {K : Type} [DecidableEq K] :
    ∀ (N : Nat) (t : FDT K), sizeOf t ≤ N →
    ∀ (d : WDict K) (res : RDict K) (k : K), wdAllFalse d →
    mkProductRec2 t (.bool false) d res k =
      if k ∈ featKeys t then some (.bool false) else res k := by
  intro N
  induction N with
  | zero =>
    intro t ht
    exact absurd ht (by cases t; simp)
  | succ N ih =>
    intro t ht d res k hd
    cases t with
    | mk name kind key children ctcs attrs =>
      rw [mkProductRec2]
      have htr : truthy (.bool false) = false := rfl
      simp only [htr, Bool.false_eq_true, if_false]
      have hsv := inferSv_allFalse kind key (children.map FDT.keyOf) d hd
      rw [hsv]
      have hlist : ∀ c ∈ children, ∀ d2 res2 k2, wdAllFalse d2 →
          mkProductRec2 c (.bool false) d2 res2 k2 =
            if k2 ∈ featKeys c then some (.bool false) else res2 k2 := by
        intro c hc d2 res2 k2 hd2
        have hsz : sizeOf c ≤ N := by
          have h1 := List.sizeOf_lt_of_mem hc
          have h2 : sizeOf children ≤ N := by simp at ht; omega
          omega
        exact ih c hsz d2 res2 k2 hd2
      rw [mkProductRec2List_false_of children _ (by simp)
        (by
          intro x hx
          rw [List.mem_map] at hx
          obtain ⟨s, _, hxe⟩ := hx
          rcases hd s with hs | hs <;> rw [← hxe, hs] <;> simp)
        hlist d _ k hd]
      by_cases h1 : k ∈ featKeysList children
      · simp [featKeys, h1]
      · rw [if_neg h1]
        rw [rset]
        by_cases h2 : k = key
        · simp [featKeys, h2]
        · simp [featKeys, h1, h2]

/-- C10: on every feature tree, `nf_product()` with zero partial products
returns a fresh (empty) declaration-error accumulator and a product
mapping the root and every feature node — named or anonymous — to
`False`, with every other key (in particular every attribute key)
absent. -/
theorem C10_nf_product_empty {K : Type} [DecidableEq K] (t : FDT K) :
    (nfProduct t []).2 = DeclErrors.init ∧
    (∀ k ∈ featKeys t, (nfProduct t []).1 k = some (.bool false)) ∧
    (∀ k, k ∉ featKeys t → (nfProduct t []).1 k = none) := by
  have h0 : wdAllFalse (K := K) (ingestAll []) := by
    intro k
    exact Or.inl rfl
  have hd : wdAllFalse (mkProductRec1 t (ingestAll [])) :=
    mkProductRec1_allFalse (sizeOf t) t le_rfl _ h0
  have hroot : ∀ v, (mkProductRec1 t (ingestAll []) t.keyOf = some v → v.1 = .bool false) := by
    intro v hv
    rcases hd t.keyOf with hk | hk
    · rw [hv] at hk
      cases hk
    · rw [hv] at hk
      rw [Option.some_inj] at hk
      rw [hk]
  have hres : ∀ k, (nfProduct t []).1 k =
      if k ∈ featKeys t then some (.bool false) else none := by
    intro k
    rw [nfProduct]
    cases hk : mkProductRec1 t (ingestAll []) t.keyOf with
    | none =>
      exact mkProductRec2_false (sizeOf t) t le_rfl _ _ k hd
    | some vi =>
      have hv : vi.1 = .bool false := hroot vi hk
      show mkProductRec2 t vi.1 (mkProductRec1 t (ingestAll [])) (fun _ => none) k = _
      rw [hv]
      exact mkProductRec2_false (sizeOf t) t le_rfl _ _ k hd
  refine ⟨?_, ?_, ?_⟩
  · rw [nfProduct]
    cases hk : mkProductRec1 t (ingestAll []) t.keyOf <;> rfl
  · intro k hk
    rw [hres k, if_pos hk]
  · intro k hk
    rw [hres k, if_neg hk]

theorem ingestFrom_append {K : Type} [DecidableEq K] (p : Product K) :
    ∀ (ps : List (Product K)) (d : WDict K) (i : Int),
    ingestFrom d i (ps ++ [p]) = ingestP (ingestFrom d i ps) p (i + (ps.length : Int)) := by
  intro ps
  induction ps with
  | nil =>
    intro d i
    simp [ingestFrom]
  | cons q rest ih =>
    intro d i
    rw [List.cons_append, ingestFrom, ih, ingestFrom]
    have : i + 1 + ((rest.length : Int)) = i + (((q :: rest).length : Int)) := by
      simp
      omega
    rw [this]

theorem ingestP_skip {K : Type} [DecidableEq K] (k : K) :
    ∀ (p : Product K) (d : WDict K) (i : Int), k ∉ p.map Prod.fst →
    ingestP d p i k = d k := by
  intro p
  induction p with
  | nil => intro d i _; rfl
  | cons x rest ih =>
    intro d i hk
    rw [List.map_cons] at hk
    rw [ingestP, List.foldl_cons]
    have h1 : k ∉ rest.map Prod.fst := fun h => hk (List.mem_cons_of_mem _ h)
    have h2 : x.1 ≠ k := fun h => hk (by rw [h]; exact List.mem_cons_self _ _)
    rw [show (rest.foldl (fun d kv => dset d kv.1 (kv.2, i)) (dset d x.1 (x.2, i))) =
      ingestP (dset d x.1 (x.2, i)) rest i from rfl]
    rw [ih _ _ h1, dset, if_neg (fun h => h2 h.symm)]

theorem ingestP_get {K : Type} [DecidableEq K] (k : K) (v : PyVal) :
    ∀ (p : Product K), (p.map Prod.fst).Nodup → pget p k = some v →
    ∀ (d : WDict K) (i : Int), ingestP d p i k = some (v, i) := by
  intro p
  induction p with
  | nil =>
    intro _ hv
    cases hv
  | cons x rest ih =>
    intro hnd hv d i
    rw [List.map_cons, List.nodup_cons] at hnd
    by_cases hx : x.1 = k
    · have hvv : x.2 = v := by
        rw [pget, List.find?_cons_of_pos _ (by simp [hx])] at hv
        simpa using hv
      rw [ingestP, List.foldl_cons]
      rw [show (rest.foldl (fun d kv => dset d kv.1 (kv.2, i)) (dset d x.1 (x.2, i))) =
        ingestP (dset d x.1 (x.2, i)) rest i from rfl]
      rw [ingestP_skip k rest _ i (by rw [← hx]; exact hnd.1)]
      rw [dset, if_pos hx.symm, hvv]
    · have hv2 : pget rest k = some v := by
        rw [pget, List.find?_cons_of_neg _ (by simp [hx])] at hv
        exact hv
      rw [ingestP, List.foldl_cons]
      rw [show (rest.foldl (fun d kv => dset d kv.1 (kv.2, i)) (dset d x.1 (x.2, i))) =
        ingestP (dset d x.1 (x.2, i)) rest i from rfl]
      exact ih hnd.2 hv2 _ i

/-- C3 (amended): the provenance-index rule holds for the INGESTION stage
of `nf_product`: after the enumerate loop, a key defined by the last
partial product is bound to that partial's value, tagged with the
highest index.  (The claim's version — that the FINAL normalized product
maps the key to the last partial's value — fails: pass 1 of the
inference can override it; see the counterexample.) -/
theorem C3_ingestion_provenance {K : Type} [DecidableEq K] (ps : List (Product K))
    (p : Product K) (k : K) (v : PyVal) (hnd : (p.map Prod.fst).Nodup)
    (hv : pget p k = some v) :
    ingestAll (ps ++ [p]) k = some (v, (ps.length : Int)) := by
  rw [ingestAll, ingestFrom_append p ps _ 0, ingestP_get k v p hnd hv]
  norm_num

/-- Witness for C3 (amended): with partials `[{a: True}]` then
`{a: False, b: 2}`, ingestion binds `a` to `(False, 1)`. -/
theorem C3_ingestion_provenance_witness :
    ingestAll (K := String) [[("a", .bool true)], [("a", .bool false), ("b", .int 2)]] "a"
      = some (.bool false, 1) := by
  have h := C3_ingestion_provenance (K := String) [[("a", .bool true)]]
    [("a", .bool false), ("b", .int 2)] "a" (.bool false) (by simp) rfl
  simpa using h

/-- Counterexample to C3 as stated: with partials `[{c: True}, {a: False}]`
the last partial maps `a` to `False`, yet `nf_product` maps `a` to `True`:
the first pass of value inference (the `FDOr` update dropping `a` to
provenance `-1`, then the `FDAnd` default overriding it from `c`)
overwrites the later partial's value. -/
theorem C3_counterexample :
    pget [(("a" : String), PyVal.bool false)] "a" = some (.bool false) ∧
    (nfProduct c3tree [[("c", .bool true)], [("a", .bool false)]]).1 "a"
      = some (.bool true) := by
  constructor
  · rfl
  · rfl

theorem pyEq_bool_true (b : Bool) : pyEq (.bool b) (.bool true) = b := by
  cases b <;> rfl

theorem extractNoneGo_zero {K : Type} {d : WDict K} {f : K → Option PyVal}
    (h : wdIs d f) : ∀ (dom : List K) (w : Option PyVal),
    extractNoneGo d dom 0 w = (0, w) := by
  intro dom
  induction dom with
  | nil => intro w; rfl
  | cons s rest ih =>
    intro w
    have hlt : ¬ ((0 : Int) < 0) := by omega
    cases hs : f s with
    | none =>
      have : d s = none := by rw [h s, hs]; rfl
      simp only [extractNoneGo, this]
      exact ih w
    | some v =>
      have : d s = some (v, 0) := by rw [h s, hs]; rfl
      simp only [extractNoneGo, this, if_neg hlt]
      exact ih w

theorem extractNone_defined {K : Type} {d : WDict K} {f : K → Option PyVal}
    (h : wdIs d f) (key : K) (ck : List K) (vk : PyVal) (hk : f key = some vk) :
    extractNone d (key :: ck) = (0, some vk) := by
  have hdk : d key = some (vk, 0) := by rw [h key, hk]; rfl
  have hlt : (-1 : Int) < 0 := by omega
  rw [extractNone]
  simp only [extractNoneGo, hdk, if_pos hlt]
  exact extractNoneGo_zero h ck (some vk)

theorem extractTrueGo_wdIs {K : Type} {d : WDict K} {f : K → Option PyVal}
    (h : wdIs d f) : ∀ (dom : List K) (i : Int),
    (extractTrueGo d dom i).2 = dom.map f ∧
    ((extractTrueGo d dom i).1 = i ∨ (extractTrueGo d dom i).1 = 0) := by
  intro dom
  induction dom with
  | nil => intro i; exact ⟨rfl, Or.inl rfl⟩
  | cons s rest ih =>
    intro i
    cases hs : f s with
    | none =>
      have hds : d s = none := by rw [h s, hs]; rfl
      have h2 := ih i
      simp only [extractTrueGo, hds]
      refine ⟨?_, h2.2⟩
      rw [List.map_cons, hs, h2.1]
    | some v =>
      have hds : d s = some (v, 0) := by rw [h s, hs]; rfl
      simp only [extractTrueGo, hds]
      by_cases hc : (pyEq v (.bool true) && decide (i < 0)) = true
      · have h2 := ih 0
        rw [if_pos hc]
        refine ⟨?_, Or.inr (by rcases h2.2 with h3 | h3 <;> exact h3)⟩
        rw [List.map_cons, hs, h2.1]
      · have h2 := ih i
        rw [if_neg hc]
        refine ⟨?_, h2.2⟩
        rw [List.map_cons, hs, h2.1]

theorem map_congr_mem {K : Type} {α : Type} (l : List K) (g1 g2 : K → α)
    (h : ∀ s ∈ l, g1 s = g2 s) : l.map g1 = l.map g2 := by
  induction l with
  | nil => rfl
  | cons s rest ih =>
    rw [List.map_cons, List.map_cons, h s (List.mem_cons_self s rest),
      ih (fun x hx => h x (List.mem_cons_of_mem s hx))]

theorem inferSv_wdIs {K : Type} [DecidableEq K] (kind : FDKind) (key : K)
    (ck : List K) (d : WDict K) (f : K → Option PyVal) (h : wdIs d f)
    (hk : ∃ b, f key = some (.bool b))
    (hck : ∀ s ∈ ck, ∃ b, f s = some (.bool b)) :
    inferSv kind key ck d = ((0 : Int), f key, ck.map f) := by
  obtain ⟨bk, hbk⟩ := hk
  have hdk : d key = some (.bool bk, 0) := by rw [h key, hbk]; rfl
  have hq2 := (extractTrueGo_wdIs h ck (-1)).1
  have hq1 := (extractTrueGo_wdIs h ck (-1)).2
  have hlt0 : ¬ ((0 : Int) < 0) := by omega
  cases kind with
  | fdAnd =>
    have hn := extractNone_defined h key ck (.bool bk) hbk
    have hgd : ∀ s ∈ key :: ck, (match d s with
        | none => ((0 : Int), some (PyVal.bool bk)).2
        | some (v, i) => if i < ((0 : Int), some (PyVal.bool bk)).1
            then ((0 : Int), some (PyVal.bool bk)).2 else some v) = f s := by
      intro s hs
      have hex : ∃ b, f s = some (.bool b) := by
        rw [List.mem_cons] at hs
        rcases hs with hs | hs
        · rw [hs]
          exact ⟨bk, hbk⟩
        · exact hck s hs
      obtain ⟨b, hb⟩ := hex
      have hds : d s = some (.bool b, 0) := by rw [h s, hb]; rfl
      rw [hds]
      show (if ((0 : Int) < 0) then some (PyVal.bool bk) else some (PyVal.bool b)) = f s
      rw [if_neg hlt0, hb]
    simp only [inferSv, hn]
    rw [hgd key (List.mem_cons_self key ck), hbk,
      map_congr_mem ck _ f (fun s hs => hgd s (List.mem_cons_of_mem key hs))]
  | fdAny =>
    simp only [inferSv, extractTrue, hdk, Option.getD_some]
    have hnlt : ¬ ((PyVal.bool bk, (0 : Int)).2 < (extractTrueGo d ck (-1)).1) := by
      rcases hq1 with h1 | h1 <;> rw [h1] <;> omega
    rw [if_neg hnlt, hq2, hbk]
  | fdOr =>
    simp only [inferSv, extractTrue, hdk, Option.getD_some]
    have hnlt : ¬ ((PyVal.bool bk, (0 : Int)).2 < (extractTrueGo d ck (-1)).1) := by
      rcases hq1 with h1 | h1 <;> rw [h1] <;> omega
    rw [if_neg hnlt, hq2, hbk]
  | fdXor =>
    simp only [inferSv, extractTrue, hdk, Option.getD_some]
    have hnlt : ¬ ((PyVal.bool bk, (0 : Int)).2 < (extractTrueGo d ck (-1)).1) := by
      rcases hq1 with h1 | h1 <;> rw [h1] <;> omega
    rw [if_neg hnlt]
    by_cases hpos : (-1 : Int) < (extractTrueGo d ck (-1)).1
    · rw [if_pos hpos]
      have hsq : (extractTrueGo d ck (-1)).1 = 0 := by
        rcases hq1 with h1 | h1
        · rw [h1] at hpos
          omega
        · exact h1
      have hforce : ∀ s ∈ ck, (fun sub =>
          some (PyVal.bool (pyEq ((d sub).getD (PyVal.bool false, -1)).1 (PyVal.bool true) &&
            ((d sub).getD (PyVal.bool false, -1)).2 == (extractTrueGo d ck (-1)).1))) s = f s := by
        intro s hs
        obtain ⟨b, hb⟩ := hck s hs
        have hds : d s = some (.bool b, 0) := by rw [h s, hb]; rfl
        simp only [hds, hsq, Option.getD_some, pyEq_bool_true, hb]
        simp
      rw [map_congr_mem ck _ f hforce, hbk]
    · rw [if_neg hpos, hq2, hbk]

theorem dset_wdIs {K : Type} [DecidableEq K] {d : WDict K} {f : K → Option PyVal}
    (h : wdIs d f) (k : K) (v : PyVal) (hk : f k = some v) :
    wdIs (dset d k (v, 0)) f := by
  intro x
  rw [dset]
  by_cases hx : x = k
  · rw [if_pos hx, hx, hk]
    rfl
  · rw [if_neg hx]
    exact h x

theorem zip_map_self {K : Type} (f : K → Option PyVal) :
    ∀ l : List K, l.zip (l.map f) = l.map (fun s => (s, f s)) := by
  intro l
  induction l with
  | nil => rfl
  | cons s rest ih => simp [ih]

theorem foldWrite_wdIs {K : Type} [DecidableEq K] {f : K → Option PyVal} :
    ∀ (l : List K) (d : WDict K), wdIs d f →
    wdIs ((l.map (fun s => (s, f s))).foldl (fun d kv =>
      match kv.2 with
      | none => d
      | some v => dset d kv.1 (v, 0)) d) f := by
  intro l
  induction l with
  | nil => intro d hd; exact hd
  | cons s rest ih =>
    intro d hd
    rw [List.map_cons, List.foldl_cons]
    cases hs : f s with
    | none => exact ih d hd
    | some v => exact ih _ (dset_wdIs hd s v hs)

theorem mkProductUpdate_wdIs {K : Type} [DecidableEq K] (key : K) (ck : List K)
    (d : WDict K) (f : K → Option PyVal) (h : wdIs d f) :
    wdIs (mkProductUpdate key ck d 0 (f key) (ck.map f)) f := by
  rw [mkProductUpdate.eq_def]
  have hd1 : wdIs (match f key with
      | none => d
      | some v => dset d key (v, 0)) f := by
    cases hk : f key with
    | none => exact h
    | some v => exact dset_wdIs h key v hk
  rw [zip_map_self f ck]
  exact foldWrite_wdIs ck _ hd1

theorem prodTotal_key {K : Type} (f : K → Option PyVal) (c : FDT K)
    (h : prodTotal f c = true) : ∃ b, f c.keyOf = some (.bool b) := by
  cases c with
  | mk name kind key children ctcs attrs =>
    rw [prodTotal, Bool.and_eq_true, Bool.and_eq_true] at h
    have h2 := h.2.1
    rw [FDT.keyOf]
    cases hk : f key with
    | none =>
      rw [hk] at h2
      cases h2
    | some v =>
      rw [hk] at h2
      cases v with
      | bool b => exact ⟨b, rfl⟩
      | int n => cases h2
      | float q => cases h2
      | str s => cases h2

theorem prodTotalList_mem {K : Type} (f : K → Option PyVal) :
    ∀ (cs : List (FDT K)) (c : FDT K), c ∈ cs → prodTotalList f cs = true →
    prodTotal f c = true := by
  intro cs
  induction cs with
  | nil =>
    intro c hc
    cases hc
  | cons x rest ih =>
    intro c hc h
    rw [prodTotalList, Bool.and_eq_true] at h
    rw [List.mem_cons] at hc
    rcases hc with hc | hc
    · rw [hc]
      exact h.1
    · exact ih c hc h.2

theorem prodTotal_parts {K : Type} (f : K → Option PyVal) (name : Option String)
    (kind : FDKind) (key : K) (children : List (FDT K)) (ctcs : List (Exp K))
    (attrs : List (AttrDef K))
    (h : prodTotal f (.mk name kind key children ctcs attrs) = true) :
    (∃ b, f key = some (.bool b)) ∧
    (∀ a ∈ attrs, (f a.key).isSome) ∧
    prodTotalList f children = true := by
  have hk := prodTotal_key f (.mk name kind key children ctcs attrs) h
  rw [FDT.keyOf] at hk
  rw [prodTotal, Bool.and_eq_true, Bool.and_eq_true, Bool.and_eq_true] at h
  refine ⟨hk, ?_, h.2.2.2⟩
  intro a ha
  have := h.2.2.1
  rw [List.all_eq_true] at this
  exact this a ha

theorem mkProductRec1List_wdIs_of {K : Type} [DecidableEq K] {f : K → Option PyVal}
    (cs : List (FDT K))
    (hcs : ∀ c ∈ cs, ∀ d, wdIs d f → wdIs (mkProductRec1 c d) f) :
    ∀ d, wdIs d f → wdIs (mkProductRec1List cs d) f := by
  induction cs with
  | nil => intro d hd; exact hd
  | cons c rest ih =>
    intro d hd
    rw [mkProductRec1List]
    exact ih (fun c2 hc2 => hcs c2 (List.mem_cons_of_mem c hc2)) _
      (hcs c (List.mem_cons_self c rest) d hd)

theorem mkProductRec1_wdIs {K : Type} [DecidableEq K] {f : K → Option PyVal} :
    ∀ (N : Nat) (t : FDT K), sizeOf t ≤ N → prodTotal f t = true →
    ∀ d, wdIs d f → wdIs (mkProductRec1 t d) f := by
  intro N
  induction N with
  | zero =>
    intro t ht
    exact absurd ht (by cases t; simp)
  | succ N ih =>
    intro t ht hok d hd
    cases t with
    | mk name kind key children ctcs attrs =>
      obtain ⟨hk, _, hchl⟩ := prodTotal_parts f name kind key children ctcs attrs hok
      have hck : ∀ s ∈ children.map FDT.keyOf, ∃ b, f s = some (.bool b) := by
        intro s hs
        rw [List.mem_map] at hs
        obtain ⟨c, hc, hce⟩ := hs
        rw [← hce]
        exact prodTotal_key f c (prodTotalList_mem f children c hc hchl)
      rw [mkProductRec1]
      have hup : ∀ d2 : WDict K, wdIs d2 f →
          wdIs (mkProductUpdate key (children.map FDT.keyOf) d2
            (inferSv kind key (children.map FDT.keyOf) d2).1
            (inferSv kind key (children.map FDT.keyOf) d2).2.1
            (inferSv kind key (children.map FDT.keyOf) d2).2.2) f := by
        intro d2 hd2
        rw [inferSv_wdIs kind key (children.map FDT.keyOf) d2 f hd2 hk hck]
        exact mkProductUpdate_wdIs key (children.map FDT.keyOf) d2 f hd2
      have hlist : ∀ c ∈ children, ∀ d2, wdIs d2 f → wdIs (mkProductRec1 c d2) f := by
        intro c hc d2 hd2
        have hsz : sizeOf c ≤ N := by
          have h1 := List.sizeOf_lt_of_mem hc
          have h2 : sizeOf children ≤ N := by simp at ht; omega
          omega
        exact ih c hsz (prodTotalList_mem f children c hc hchl) d2 hd2
      exact hup _ (mkProductRec1List_wdIs_of children hlist _ (hup d hd))

theorem attrFold_wdIs {K : Type} [DecidableEq K] {d : WDict K} {f : K → Option PyVal}
    (h : wdIs d f) :
    ∀ (attrs : List (AttrDef K)), (∀ a ∈ attrs, (f a.key).isSome) →
    ∀ (res : RDict K) (k : K),
    (attrs.foldl (fun r a =>
      match d a.key with
      | none => r
      | some (v, _) => rset r a.key v) res) k =
      if k ∈ attrs.map (·.key) then f k else res k := by
  intro attrs
  induction attrs with
  | nil =>
    intro _ res k
    simp
  | cons a rest ih =>
    intro hdef res k
    obtain ⟨va, hva⟩ := Option.isSome_iff_exists.mp (hdef a (List.mem_cons_self a rest))
    have hda : d a.key = some (va, 0) := by rw [h a.key, hva]; rfl
    simp only [List.foldl_cons, hda]
    rw [ih (fun x hx => hdef x (List.mem_cons_of_mem a hx)) _ k]
    by_cases h1 : k ∈ rest.map (·.key)
    · simp [h1]
    · rw [if_neg h1]
      simp only [rset]
      by_cases h2 : k = a.key
      · rw [if_pos h2]
        have : f k = some va := by rw [h2, hva]
        simp [h2, this, hva]
      · rw [if_neg h2]
        have : ¬ k ∈ (a :: rest).map (·.key) := by
          rw [List.map_cons, List.mem_cons]
          push_neg
          exact ⟨h2, h1⟩
        rw [if_neg this]

theorem mkProductRec2List_wdIs_of {K : Type} [DecidableEq K] {f : K → Option PyVal} :
    ∀ (cs : List (FDT K)),
    (∀ c ∈ cs, ∃ b, f c.keyOf = some (.bool b)) →
    (∀ c ∈ cs, ∀ d res v k, wdIs d f → f c.keyOf = some v →
      mkProductRec2 c v d res k =
        if k ∈ featKeys c ∨ k ∈ trueAttrKeys f c then f k else res k) →
    ∀ (d : WDict K) (res : RDict K) (k : K), wdIs d f →
    mkProductRec2List cs (cs.map (fun c => f c.keyOf)) d res k =
      if k ∈ featKeysList cs ∨ k ∈ trueAttrKeysList f cs then f k else res k := by
  intro cs
  induction cs with
  | nil =>
    intro _ _ d res k _
    simp [mkProductRec2List, featKeysList, trueAttrKeysList]
  | cons c rest ih =>
    intro hkeys hcs d res k hd
    rw [List.map_cons, mkProductRec2List]
    obtain ⟨b, hb⟩ := hkeys c (List.mem_cons_self c rest)
    rw [hb]
    have hone := hcs c (List.mem_cons_self c rest) d res
      ((some (PyVal.bool b)).getD (.bool false)) k hd (by rw [hb]; rfl)
    have hstep := ih (fun c2 hc2 => hkeys c2 (List.mem_cons_of_mem c hc2))
      (fun c2 hc2 => hcs c2 (List.mem_cons_of_mem c hc2))
      d (mkProductRec2 c ((some (PyVal.bool b)).getD (.bool false)) d res) k hd
    rw [hstep, hone]
    rw [featKeysList, trueAttrKeysList]
    by_cases h1 : k ∈ featKeysList rest ∨ k ∈ trueAttrKeysList f rest
    · rcases h1 with h1 | h1 <;> simp [h1]
    · push_neg at h1
      rw [if_neg (by
        intro hcon
        rcases hcon with hcon | hcon
        · exact h1.1 hcon
        · exact h1.2 hcon)]
      by_cases h2 : k ∈ featKeys c ∨ k ∈ trueAttrKeys f c
      · rcases h2 with h2 | h2 <;> simp [h2, h1.1, h1.2]
      · push_neg at h2
        rw [if_neg (by
          intro hcon
          rcases hcon with hcon | hcon
          · exact h2.1 hcon
          · exact h2.2 hcon)]
        rw [if_neg (by
          intro hcon
          rcases hcon with hcon | hcon
          · rw [List.mem_append] at hcon
            rcases hcon with hcon | hcon
            · exact h2.1 hcon
            · exact h1.1 hcon
          · rw [List.mem_append] at hcon
            rcases hcon with hcon | hcon
            · exact h2.2 hcon
            · exact h1.2 hcon)]

theorem mkProductRec2_wdIs {K : Type} [DecidableEq K] {f : K → Option PyVal} :
    ∀ (N : Nat) (t : FDT K), sizeOf t ≤ N → prodTotal f t = true →
    ∀ (d : WDict K) (res : RDict K) (v : PyVal) (k : K), wdIs d f →
    f t.keyOf = some v →
    mkProductRec2 t v d res k =
      if k ∈ featKeys t ∨ k ∈ trueAttrKeys f t then f k else res k := by
  intro N
  induction N with
  | zero =>
    intro t ht
    exact absurd ht (by cases t; simp)
  | succ N ih =>
    intro t ht hok d res v k hd hv
    cases t with
    | mk name kind key children ctcs attrs =>
      obtain ⟨hk, hattrs, hchl⟩ := prodTotal_parts f name kind key children ctcs attrs hok
      rw [FDT.keyOf] at hv
      have hck : ∀ s ∈ children.map FDT.keyOf, ∃ b, f s = some (.bool b) := by
        intro s hs
        rw [List.mem_map] at hs
        obtain ⟨c, hc, hce⟩ := hs
        rw [← hce]
        exact prodTotal_key f c (prodTotalList_mem f children c hc hchl)
      have hlist : ∀ c ∈ children, ∀ d2 res2 v2 k2, wdIs d2 f → f c.keyOf = some v2 →
          mkProductRec2 c v2 d2 res2 k2 =
            if k2 ∈ featKeys c ∨ k2 ∈ trueAttrKeys f c then f k2 else res2 k2 := by
        intro c hc d2 res2 v2 k2 hd2 hv2
        have hsz : sizeOf c ≤ N := by
          have h1 := List.sizeOf_lt_of_mem hc
          have h2 : sizeOf children ≤ N := by simp at ht; omega
          omega
        exact ih c hsz (prodTotalList_mem f children c hc hchl) d2 res2 v2 k2 hd2 hv2
      have hkeys : ∀ c ∈ children, ∃ b, f c.keyOf = some (.bool b) := fun c hc =>
        prodTotal_key f c (prodTotalList_mem f children c hc hchl)
      have hmm : (children.map FDT.keyOf).map f = children.map (fun c => f c.keyOf) := by
        rw [List.map_map]
        rfl
      have hsub := mkProductRec2List_wdIs_of children hkeys hlist d (rset res key v) k hd
      have hres1 : rset res key v k = if k = key then f k else res k := by
        simp only [rset]
        by_cases hx : k = key
        · rw [if_pos hx, if_pos hx, hx, hv]
        · rw [if_neg hx, if_neg hx]
      have htak : trueAttrKeys f (.mk name kind key children ctcs attrs) =
          (if truthy v then attrs.map (·.key) else []) ++ trueAttrKeysList f children := by
        rw [trueAttrKeys, hv]
      rw [mkProductRec2]
      rw [inferSv_wdIs kind key (children.map FDT.keyOf) d f hd hk hck]
      rw [hmm]
      rw [featKeys, htak]
      by_cases htv : truthy v = true
      · rw [if_pos htv, if_pos htv]
        rw [attrFold_wdIs hd attrs hattrs _ k, hsub, hres1]
        by_cases hA : k ∈ attrs.map (·.key) <;>
          by_cases hF : k ∈ featKeysList children <;>
          by_cases hT : k ∈ trueAttrKeysList f children <;>
          by_cases hC : k = key <;>
          simp [hA, hF, hT, hC, List.mem_cons, List.mem_append]
      · rw [if_neg htv, if_neg htv, List.nil_append]
        rw [hsub, hres1]
        by_cases hF : k ∈ featKeysList children <;>
          by_cases hT : k ∈ trueAttrKeysList f children <;>
          by_cases hC : k = key <;>
          simp [hF, hT, hC, List.mem_cons, List.mem_append]

theorem ingestAll_single {K : Type} [DecidableEq K] (pl : Product K)
    (hnd : (pl.map Prod.fst).Nodup) : wdIs (ingestAll [pl]) (pget pl) := by
  intro k
  have hrw : ingestAll [pl] k = ingestP (fun _ => none) pl 0 k := rfl
  cases hv : pget pl k with
  | some v =>
    rw [hrw, ingestP_get k v pl hnd hv _ 0]
    rfl
  | none =>
    have hnm : k ∉ pl.map Prod.fst := by
      intro hm
      rw [List.mem_map] at hm
      obtain ⟨x, hx, hxe⟩ := hm
      rw [pget] at hv
      rw [Option.map_eq_none'] at hv
      have := List.find?_eq_none.mp hv x hx
      simp [hxe] at this
    rw [hrw, ingestP_skip k pl _ 0 hnm]
    rfl

/-- C4 (amended): on an all-named tree, for a single total partial product
(every feature given a Boolean, every attribute key defined), the
normalized product keeps the product's value on EVERY feature key and on
every attribute key of a truthy-valued feature, and maps every other key
— in particular each attribute key of a non-selected feature, the keys
the claim said were preserved — to nothing.  Acceptance is irrelevant:
the preservation holds for all such products, and the counterexample
shows an ACCEPTED product whose deselected-feature attribute is still
dropped, refuting the claim's round-trip. -/
theorem C4_nf_product_preservation {K : Type} [DecidableEq K] (t : FDT K)
    (pl : Product K) (hnd : (pl.map Prod.fst).Nodup)
    (hok : prodTotal (pget pl) t = true) :
    ∀ k, (nfProduct t [pl]).1 k =
      if k ∈ featKeys t ∨ k ∈ trueAttrKeys (pget pl) t then pget pl k else none := by
  intro k
  have hw0 : wdIs (ingestAll [pl]) (pget pl) := ingestAll_single pl hnd
  have hw1 : wdIs (mkProductRec1 t (ingestAll [pl])) (pget pl) :=
    mkProductRec1_wdIs (sizeOf t) t le_rfl hok _ hw0
  obtain ⟨b, hb⟩ := prodTotal_key (pget pl) t hok
  have hroot : mkProductRec1 t (ingestAll [pl]) t.keyOf = some (.bool b, 0) := by
    rw [hw1 t.keyOf, hb]
    rfl
  rw [nfProduct]
  rw [hroot]
  show mkProductRec2 t (PyVal.bool b) (mkProductRec1 t (ingestAll [pl])) (fun _ => none) k = _
  rw [mkProductRec2_wdIs (sizeOf t) t le_rfl hok _ _ _ k hw1 hb]

/-- Counterexample to C4 as stated: the FM accepts the total product
(value `True`, empty reason), the product defines `tv = 7`, yet
`nf_product` drops `tv` (its owner `t` is deselected), so the
round-trip fails on a key the product owns. -/
theorem C4_counterexample :
    fmCall (fun k => pget c4pl k) c4tree
      = .ok ⟨true, none, .val (.bool true), ["a", "r"]⟩ ∧
    pget c4pl "tv" = some (.int 7) ∧
    (nfProduct c4tree [c4pl]).1 "tv" = none := by
  refine ⟨rfl, rfl, rfl⟩

/-- Witness for C4 (amended) on the counterexample FM with everything
selected: `tv` is preserved. -/
theorem C4_nf_product_preservation_witness :
    (c4plT.map Prod.fst).Nodup ∧ prodTotal (pget c4plT) c4tree = true ∧
    (nfProduct c4tree [c4plT]).1 "tv" = some (.int 7) := by
  refine ⟨by decide, by decide, ?_⟩
  have h := C4_nf_product_preservation c4tree c4plT (by decide) (by decide) "tv"
  rw [h]
  rfl

end Pydop
